import Mathlib

set_option maxHeartbeats 1000000

/-!
Shallow embedding of the record parsing, classification, cross-reference and
history-reconstruction core of the spectator repository (src/src/App.tsx).

Machine-level conventions of the embedding:
* JSON values are modelled by the inductive `Json`; numbers are restricted to
  the integer fragment (the records the core consumes carry integer versions,
  epochs and sizes; IEEE floats and NaN are outside the model).
* JavaScript `undefined` is modelled by `Option.none`, JavaScript `null` by
  `Json.null`.
* `JSON.parse` is an external runtime facility, not code of this repository;
  the parser embedding is parameterised over it as a function
  `String → Except String Json` (error value = the thrown message).
-/

inductive Json where
  | null
  | bool (b : Bool)
  | num (n : Int)
  | str (s : String)
  | arr (items : List Json)
  | obj (fields : List (String × Json))

def Json.isNull : Json → Bool
  | .null => true
  | _ => false

/-- JS property access `value.key` (undefined on non-objects).  Objects
produced by `JSON.parse` have pairwise-distinct keys, so first-match lookup
agrees with JS property lookup on every reachable value. -/
def Json.getField : Json → String → Option Json
  | .obj fields, k => (fields.find? (fun p => p.1 == k)).map (fun p => p.2)
  | _, _ => none

/-- JS truthiness of a value (`Boolean(v)`), on the integer fragment. -/
def jsTruthy : Json → Bool
  | .null => false
  | .bool b => b
  | .num n => n != 0
  | .str s => s != ""
  | .arr _ => true
  | .obj _ => true

mutual

/-- JS string coercion `String(v)` / template-literal interpolation, on the
integer fragment (arrays join their elements with commas, `null` elements
becoming empty, like `Array.prototype.toString`). -/
def jsToString : Json → String
  | .null => "null"
  | .bool b => if b then "true" else "false"
  | .num n => toString n
  | .str s => s
  | .obj _ => "[object Object]"
  | .arr items => String.intercalate "," (jsToStringItems items)

/-- The element strings of `Array.prototype.toString` (null becomes empty). -/
def jsToStringItems : List Json → List String
  | [] => []
  | .null :: rest => "" :: jsToStringItems rest
  | v :: rest => jsToString v :: jsToStringItems rest

end

/-- ASCII lowercasing of one character, modelling `toLowerCase` on the
character range the records use (Unicode case folding beyond ASCII is outside
the model). -/
def charLower (c : Char) : Char :=
  if 65 ≤ c.toNat && c.toNat ≤ 90 then Char.ofNat (c.toNat + 32) else c

/-- JS whitespace as trimmed by `String.prototype.trim`, on the ASCII range. -/
def isJsSpace (c : Char) : Bool :=
  c == ' ' || c == '\t' || c == '\n' || c == '\r' || c == '\x0b' || c == '\x0c'

/-- `s.trim()` at the character level. -/
def trimChars (cs : List Char) : List Char :=
  ((cs.dropWhile isJsSpace).reverse.dropWhile isJsSpace).reverse

/-- Digits-only string-to-number coercion used by `jsToNumber` below. -/
def digitsToNat : List Char → Option Nat
  | [] => none
  | cs =>
    cs.foldl
      (fun acc c => match acc with
        | none => none
        | some n => if c.isDigit then some (n * 10 + (c.toNat - 48)) else none)
      (some 0)

/-- JS `Number(v)` coercion, on the integer fragment: strings parse as an
optional sign followed by decimal digits (the only shape the version fields
of this repository's records take); every coercion that would produce `NaN`
or a non-integer float is outside the model and mapped to `0`. -/
def jsToNumber : Json → Int
  | .null => 0
  | .bool b => if b then 1 else 0
  | .num n => n
  | .str s =>
    (match trimChars s.toList with
      | '-' :: rest => (digitsToNat rest).map (fun n => -(n : Int))
      | '+' :: rest => (digitsToNat rest).map (fun n => (n : Int))
      | cs => if cs = [] then some 0 else (digitsToNat cs).map (fun n => (n : Int))).getD 0
  | .arr _ => 0
  | .obj _ => 0

/-- `a ?? b` — JS nullish coalescing on possibly-absent values. -/
def jsCoalesce : Option Json → Option Json → Option Json
  | some .null, b => b
  | none, b => b
  | some v, _ => some v

/-! ### Line splitting

`computeDiff` splits on the single character `'\n'` (`text.split('\n')`);
`parseClaudeJsonl` splits on the regex `/\r?\n/`.  Both are modelled over
character lists. -/

/-- `text.split('\n')` — split at every newline character; always yields at
least one (possibly empty) piece, exactly like the JS method. -/
def splitOnNl : List Char → List (List Char)
  | [] => [[]]
  | '\n' :: rest => [] :: splitOnNl rest
  | c :: rest =>
    match splitOnNl rest with
    | [] => [[c]]
    | l :: ls => (c :: l) :: ls

/-- `text.split(/\r?\n/)` — each separator is a newline optionally preceded
by a carriage return. -/
def splitOnRn : List Char → List (List Char)
  | [] => [[]]
  | '\r' :: '\n' :: rest => [] :: splitOnRn rest
  | '\n' :: rest => [] :: splitOnRn rest
  | c :: rest =>
    match splitOnRn rest with
    | [] => [[c]]
    | l :: ls => (c :: l) :: ls

/-- The line sequence `oldText.split('\n')` as strings. -/
def splitNl (s : String) : List String :=
  (splitOnNl s.toList).map (fun cs => String.mk cs)

/-! ### Differ (`computeDiff`, App.tsx lines 2223–2245) -/

inductive DiffKind where
  | added
  | removed
  | context
  deriving Repr, DecidableEq

structure DiffLine where
  type : DiffKind
  content : String
  deriving Repr, DecidableEq

/-- The body of one iteration of `computeDiff`'s loop at index `i`:
`oldLine === newLine && oldLine !== undefined` emits one context line;
otherwise a removed line when `oldLine` is present, then an added line when
`newLine` is present. -/
def diffStep : Option String → Option String → List DiffLine
  | some a, some b =>
    if a = b then [⟨.context, a⟩] else [⟨.removed, a⟩, ⟨.added, b⟩]
  | some a, none => [⟨.removed, a⟩]
  | none, some b => [⟨.added, b⟩]
  | none, none => []

/-- `computeDiff`'s loop over `0 .. max(len, len) - 1`, pushing onto the
accumulated diff array. -/
def computeDiffLines (oldLines newLines : List String) : List DiffLine :=
  (List.range (max oldLines.length newLines.length)).foldl
    (fun diff i => diff ++ diffStep oldLines[i]? newLines[i]?) []

/-- `computeDiff(oldText, newText)` (App.tsx 2223). -/
def computeDiff (oldText newText : String) : List DiffLine :=
  computeDiffLines (splitNl oldText) (splitNl newText)

/-- Structural formulation of the same positional walk, used to prove
conservation properties by joint induction on the two line lists. -/
def diffRec : List String → List String → List DiffLine
  | [], [] => []
  | a :: as, [] => ⟨.removed, a⟩ :: diffRec as []
  | [], b :: bs => ⟨.added, b⟩ :: diffRec [] bs
  | a :: as, b :: bs =>
    (if a = b then [⟨.context, a⟩] else [⟨.removed, a⟩, ⟨.added, b⟩]) ++ diffRec as bs

/-- Number of diff lines of a given kind. -/
def countKind (t : DiffKind) (l : List DiffLine) : Nat :=
  (l.filter (fun d => d.type == t)).length

/-! ### Record classification (`detectCategory`, App.tsx 1862–1893)

Property reads on JSON `null` throw a `TypeError` which the `try` in
`parseClaudeJsonl` catches: `data.type` (App.tsx 1863) throws when the parsed
record itself is null, and `containsToolContent` reads `entry.type` on each
content item with no null guard, so a JSON `null` inside a content array
throws too.  Classification is therefore modelled in `Except String`, the
error value standing for the thrown runtime error's message. -/

inductive EntryCategory where
  | message
  | tool
  | summary
  | snapshot
  | system
  | queue
  | other
  | error
  deriving Repr, DecidableEq

/-- JS strict equality `v === "s"` between a possibly-absent value and a
string literal. -/
def jsEqStr : Option Json → String → Bool
  | some (.str t), s => t == s
  | _, _ => false

/-- `Array.isArray(content) ? content : content ? [content] : []`. -/
def jsItems : Option Json → List Json
  | some (.arr items) => items
  | some v => if jsTruthy v then [v] else []
  | none => []

/-- `entry.type === 'tool_use' || entry.type === 'tool_result'` for a
non-null item. -/
def isToolTyped (item : Json) : Bool :=
  jsEqStr (item.getField "type") "tool_use" || jsEqStr (item.getField "type") "tool_result"

/-- The modelled message of the `TypeError` thrown by reading `.type` of a
JSON null — a null record at App.tsx 1863 or a null content item at 1891
(the exact text is engine-specific but always nonempty). -/
def nullItemTypeError : String :=
  "TypeError: Cannot read properties of null (reading 'type')"

/-- The modelled message of the `TypeError` thrown by reading `.message` of a
JSON null record (App.tsx 1839). -/
def nullRecordTypeError : String :=
  "TypeError: Cannot read properties of null (reading 'message')"

/-- `data.type` (App.tsx 1863): property access throws on a JSON null record;
on every other record it yields the field value (or undefined). -/
def recordType : Json → Except String (Option Json)
  | .null => .error nullItemTypeError
  | data => .ok (data.getField "type")

/-- `data.message` (App.tsx 1839): the first property read of a freshly
parsed record, inside the `try`; throws on a JSON null record. -/
def recordMessage : Json → Except String (Option Json)
  | .null => .error nullRecordTypeError
  | data => .ok (data.getField "message")

/-- `items.some((item) => { const entry = item; return entry.type === 'tool_use'
|| entry.type === 'tool_result' })` — left-to-right with short-circuit; a null
item reached before any matching item throws. -/
def someToolItem : List Json → Except String Bool
  | [] => .ok false
  | .null :: _ => .error nullItemTypeError
  | item :: rest => if isToolTyped item then .ok true else someToolItem rest

/-- `containsToolContent(content)` (App.tsx 1887). -/
def containsToolContent (content : Option Json) : Except String Bool :=
  someToolItem (jsItems content)

/-- `message?.content` of a record: `data.message` then its `content` field,
with optional chaining. -/
def messageContent (data : Json) : Option Json :=
  (data.getField "message").bind (fun m => m.getField "content")

/-- `detectCategory(data)` (App.tsx 1862): the `data.type` read throws on a
JSON null record; otherwise a priority list of type checks, with the nested
content deciding tool vs message for user/assistant records. -/
def detectCategory (data : Json) : Except String EntryCategory :=
  match recordType data with
  | .error e => .error e
  | .ok t =>
    if jsEqStr t "summary" then .ok .summary
    else if jsEqStr t "file-history-snapshot" then .ok .snapshot
    else if jsEqStr t "queue-operation" then .ok .queue
    else if jsEqStr t "system" then .ok .system
    else if jsEqStr t "assistant" || jsEqStr t "user" then
      match containsToolContent (messageContent data) with
      | .error e => .error e
      | .ok true => .ok .tool
      | .ok false => .ok .message
    else .ok .other

/-- The `data.type` fallback branch of `deriveRole`. -/
def roleFromType (data : Json) : Option String :=
  match data.getField "type" with
  | some v => if jsTruthy v then some (jsToString v) else none
  | none => none

/-- `deriveRole(data)` (App.tsx 1895). -/
def deriveRole (data : Json) : Option String :=
  match (data.getField "message").bind (fun m => m.getField "role") with
  | some v => if jsTruthy v then some (jsToString v) else roleFromType data
  | none => roleFromType data

/-- First truthy value of a JS `||` chain of possibly-absent values; `none`
when every link is absent or falsy (in which case the source's
`if (candidate)` guard fails and the fallback id is used). -/
def jsOrChain : List (Option Json) → Option Json
  | [] => none
  | v :: rest =>
    match v with
    | some j => if jsTruthy j then some j else jsOrChain rest
    | none => jsOrChain rest

/-- `deriveId(data, fallbackIndex)` (App.tsx 1906). -/
def deriveId (data : Json) (fallbackIndex : Nat) : String :=
  match jsOrChain
      [data.getField "uuid", data.getField "leafUuid", data.getField "messageId",
        (data.getField "message").bind (fun m => m.getField "id")] with
  | some v => jsToString v
  | none => "entry-" ++ toString fallbackIndex

/-! ### Timestamp normalization (`formatTimestamp`, App.tsx 1918–1932)

`new Date(string)` parsing and `Date.prototype.toLocaleString` are
locale/timezone-dependent runtime facilities, not code of this repository;
the embedding is parameterised over them.  `parseDateString` returns the
parsed epoch milliseconds, `none` standing for an Invalid Date. -/

structure JsDateRuntime where
  parseDateString : String → Option Int
  formatLocale : Int → String

/-- `new Date(n)` for a numeric argument is valid iff the epoch offset is at
most 8.64e15 milliseconds (ECMA-262 time range; NaN inputs are outside the
integer model). -/
def epochInRange (n : Int) : Bool :=
  n.natAbs ≤ 8640000000000000

/-- `formatTimestamp(value)` (App.tsx 1918). -/
def formatTimestamp (rt : JsDateRuntime) (value : Option Json) : Option String :=
  match value with
  | none => none
  | some v =>
    if !jsTruthy v then none
    else
      match v with
      | .num n => if epochInRange n then some (rt.formatLocale n) else none
      | .str s =>
        match rt.parseDateString s with
        | some t => some (rt.formatLocale t)
        | none => none
      | _ => none

/-! ### Record parser (`parseClaudeJsonl`, App.tsx 1828–1860) -/

structure ParsedEntry where
  id : String
  raw : String
  data : Option Json := none
  error : Option String := none
  category : EntryCategory
  timestamp : Option String := none
  role : Option String := none

/-- The body of `parseClaudeJsonl`'s per-line callback: `JSON.parse`, the
`data.message` read (App.tsx 1839, throwing on a null record), then
classification, all inside a `try`; any thrown error becomes an error entry
whose message is the error's (`error instanceof Error ? error.message : ...`). -/
def parseLine (jp : String → Except String Json) (rt : JsDateRuntime)
    (index : Nat) (line : String) : ParsedEntry :=
  match jp line with
  | .error e =>
    { id := "error-" ++ toString index, raw := line, error := some e, category := .error }
  | .ok data =>
    match recordMessage data with
    | .error e =>
      { id := "error-" ++ toString index, raw := line, error := some e, category := .error }
    | .ok message =>
      match detectCategory data with
      | .error e =>
        { id := "error-" ++ toString index, raw := line, error := some e, category := .error }
      | .ok category =>
        { id := deriveId data index
          raw := line
          data := some data
          category := category
          role := deriveRole data
          timestamp := formatTimestamp rt
            (jsCoalesce (data.getField "timestamp")
              (message.bind (fun m => m.getField "timestamp"))) }

/-- `text.split(/\r?\n/).filter(Boolean)` — the non-empty lines, in order. -/
def nonEmptyLines (text : String) : List String :=
  ((splitOnRn text.toList).map (fun cs => String.mk cs)).filter (fun l => l != "")

/-- `.map((line, index) => ...)` with the index threaded explicitly. -/
def mapWithIndex (f : Nat → String → ParsedEntry) : Nat → List String → List ParsedEntry
  | _, [] => []
  | i, line :: rest => f i line :: mapWithIndex f (i + 1) rest

/-- `parseClaudeJsonl(text)` (App.tsx 1828), parameterised over the JSON
parser and the date runtime. -/
def parseClaudeJsonl (jp : String → Except String Json) (rt : JsDateRuntime)
    (text : String) : List ParsedEntry :=
  if text = "" then []
  else mapWithIndex (parseLine jp rt) 0 (nonEmptyLines text)

/-! ### Tool-use correlator (`buildToolUseLookup`, App.tsx 2260–2286)

A JS object keyed by invocation id is modelled as an insertion-ordered
association list with pairwise-distinct keys: assigning to an existing key
replaces its value in place, assigning a fresh key appends.  Property keys
are strings, so a truthy non-string id is coerced with `jsToString`; the
stored fields keep the raw values. -/

structure ToolUseInfo where
  id : Json
  name : Option Json
  input : Option Json

/-- `typeof item === 'object'` for a non-null value (arrays included). -/
def isObjectLike : Json → Bool
  | .arr _ => true
  | .obj _ => true
  | _ => false

/-- The tool-use items one entry contributes, in content order: the body of
the inner `items.forEach` of `buildToolUseLookup`, with its three guards
(`!item || typeof item !== 'object'`, `record.type !== 'tool_use'`, `!id`). -/
def entryToolUses (entry : ParsedEntry) : List (String × ToolUseInfo) :=
  let content :=
    (entry.data.bind (fun d => d.getField "message")).bind (fun m => m.getField "content")
  (jsItems content).filterMap (fun item =>
    if !(jsTruthy item && isObjectLike item) then none
    else if !(jsEqStr (item.getField "type") "tool_use") then none
    else
      match item.getField "id" with
      | none => none
      | some idv =>
        if !jsTruthy idv then none
        else some (jsToString idv, ⟨idv, item.getField "name", item.getField "input"⟩))

/-- `lookup[id] = v` — JS object assignment on the association-list model. -/
def setKey (m : List (String × ToolUseInfo)) (k : String) (v : ToolUseInfo) :
    List (String × ToolUseInfo) :=
  if m.any (fun p => p.1 == k) then m.map (fun p => if p.1 == k then (k, v) else p)
  else m ++ [(k, v)]

/-- `lookup[id]` — JS object property read. -/
def getKey (m : List (String × ToolUseInfo)) (k : String) : Option ToolUseInfo :=
  (m.find? (fun p => p.1 == k)).map (fun p => p.2)

/-- The full forward pass of `buildToolUseLookup` starting from a given
lookup object. -/
def applyToolUsePass (m : List (String × ToolUseInfo)) (entries : List ParsedEntry) :
    List (String × ToolUseInfo) :=
  entries.foldl
    (fun acc entry => (entryToolUses entry).foldl (fun acc2 kv => setKey acc2 kv.1 kv.2) acc) m

/-- `buildToolUseLookup(entries)` (App.tsx 2260): the pass started on `{}`. -/
def buildToolUseLookup (entries : List ParsedEntry) : List (String × ToolUseInfo) :=
  applyToolUsePass [] entries

/-! ### File-history indexer (`buildFileHistoryIndex`, App.tsx 2160–2205) -/

structure FileBackupInfo where
  filePath : String
  backupFileName : String
  version : Int
  backupTime : Option Json

/-- `index[filePath]` on the association-list model of the index object. -/
def idxGet (index : List (String × List FileBackupInfo)) (p : String) :
    Option (List FileBackupInfo) :=
  (index.find? (fun q => q.1 == p)).map (fun q => q.2)

/-- `if (!index[filePath]) index[filePath] = []; index[filePath].push(info)`. -/
def idxAppend (index : List (String × List FileBackupInfo)) (p : String)
    (info : FileBackupInfo) : List (String × List FileBackupInfo) :=
  if index.any (fun q => q.1 == p) then
    index.map (fun q => if q.1 == p then (q.1, q.2 ++ [info]) else q)
  else index ++ [(p, [info])]

/-- `Object.entries(v)`: own enumerable properties in order — an object's
fields, an array's indexed elements, a string's characters. -/
def jsObjectEntries : Json → List (String × Json)
  | .obj fields => fields
  | .arr items => items.enum.map (fun x => (toString x.1, x.2))
  | .str s => s.toList.enum.map (fun x => (toString x.1, Json.str (String.mk [x.2])))
  | _ => []

structure HistoryState where
  index : List (String × List FileBackupInfo)
  seen : List String

/-- `Number(info?.version ?? 0)` — the tracked file's version number. -/
def trackedVersion (info : Json) : Int :=
  match info.getField "version" with
  | some .null => 0
  | some w => jsToNumber w
  | none => 0

/-- The de-duplication key `` `${filePath}@${backupFileName}@${version}` ``. -/
def trackedKey (filePath : String) (info v : Json) : String :=
  filePath ++ "@" ++ jsToString v ++ "@" ++ toString (trackedVersion info)

/-- The body of the `Object.entries(tracked).forEach(([filePath, info]) => ...)`
callback: extract name/version/time, skip falsy backup filenames, de-duplicate
on the key, append. -/
def processTrackedFile (st : HistoryState) (kv : String × Json) : HistoryState :=
  match kv.2.getField "backupFileName" with
  | none => st
  | some v =>
    if !jsTruthy v then st
    else if st.seen.any (fun s => s == trackedKey kv.1 kv.2 v) then st
    else
      { index := idxAppend st.index kv.1
          ⟨kv.1, jsToString v, trackedVersion kv.2, kv.2.getField "backupTime"⟩
        seen := st.seen ++ [trackedKey kv.1 kv.2 v] }

/-- The body of the `entries.forEach` of `buildFileHistoryIndex`: only records
whose `data.type` is `"file-history-snapshot"` and whose
`snapshot?.trackedFileBackups` is truthy contribute. -/
def processSnapshotEntry (st : HistoryState) (entry : ParsedEntry) : HistoryState :=
  match entry.data with
  | none => st
  | some data =>
    if !(jsEqStr (data.getField "type") "file-history-snapshot") then st
    else
      match (data.getField "snapshot").bind (fun s => s.getField "trackedFileBackups") with
      | none => st
      | some t =>
        if !jsTruthy t then st
        else (jsObjectEntries t).foldl processTrackedFile st

/-- Stable insertion of one backup record into a version-sorted list; the
fold below models `list.sort((a, b) => a.version - b.version)`, which is a
stable ascending sort by version. -/
def insertByVersion (x : FileBackupInfo) : List FileBackupInfo → List FileBackupInfo
  | [] => [x]
  | y :: ys => if x.version ≤ y.version then x :: y :: ys else y :: insertByVersion x ys

def sortByVersion (l : List FileBackupInfo) : List FileBackupInfo :=
  l.foldr insertByVersion []

/-- `buildFileHistoryIndex(entries)` (App.tsx 2160). -/
def buildFileHistoryIndex (entries : List ParsedEntry) :
    List (String × List FileBackupInfo) :=
  ((entries.foldl processSnapshotEntry ⟨[], []⟩).index).map
    (fun q => (q.1, sortByVersion q.2))

/-- `findPreviousBackup(filePath, version, index)` (App.tsx 2207). -/
def findPreviousBackup (filePath : String) (version : Int)
    (index : List (String × List FileBackupInfo)) : Option FileBackupInfo :=
  match idxGet index filePath with
  | none => none
  | some list =>
    if list.isEmpty || version == 0 then none
    else if (list.filter (fun item => item.version < version)).isEmpty then none
    else (list.filter (fun item => item.version < version)).getLast?

/-- The de-duplication key `` `${filePath}@${backupFileName}@${version}` `` of
an indexed backup record, recomputed from its stored fields. -/
def backupKey (info : FileBackupInfo) : String :=
  info.filePath ++ "@" ++ info.backupFileName ++ "@" ++ toString info.version

/-- Invariant of the indexer scan: every bucket entry carries its bucket's
path and has its key registered in `seen`, and no bucket holds two entries
with the same (backupFileName, version) pair. -/
def HistInv (st : HistoryState) : Prop :=
  ∀ p l, idxGet st.index p = some l →
    (∀ info ∈ l, info.filePath = p ∧ backupKey info ∈ st.seen) ∧
    l.Pairwise (fun a b => ¬(a.backupFileName = b.backupFileName ∧ a.version = b.version))

/-! ### Project hierarchy builder (`buildProjectTree`, App.tsx 2032–2104)

The source builds a graph of mutable node objects shared between `nodeMap`,
the `root` array and the `children` arrays, keyed by the cumulative joined
path `pathParts.join('/')`.  Segments produced by `split('/').filter(Boolean)`
are nonempty and slash-free, so the joined path determines the segment list;
the embedding keys the node store by the segment list directly and
materialises the object graph into a tree afterwards. -/

structure SessionListing where
  id : String
  path : String
  project : String
  projectSlug : String
  mtimeMs : Int
  size : Int
  source : String

structure SessionGroup where
  project : String
  projectSlug : String
  latestMtime : Int
  sessions : List SessionListing

/-- `s.split('/')` over characters. -/
def splitOnSlash : List Char → List (List Char)
  | [] => [[]]
  | '/' :: rest => [] :: splitOnSlash rest
  | c :: rest =>
    match splitOnSlash rest with
    | [] => [[c]]
    | l :: ls => (c :: l) :: ls

/-- `group.project.split('/').filter(Boolean)` — the nonempty path segments. -/
def splitPath (s : String) : List String :=
  ((splitOnSlash s.toList).map (fun cs => String.mk cs)).filter (fun x => x != "")

/-- The mutable fields of one tree node (children held as store keys). -/
structure NodeData where
  name : String
  latestMtime : Int
  sessionsCount : Nat
  projectSlug : Option String
  childKeys : List (List String)

/-- The heap of the imperative builder: `nodeMap` and the `root` array. -/
structure TreeState where
  nodes : List (List String × NodeData)
  roots : List (List String)

def nodesGet (nodes : List (List String × NodeData)) (k : List String) : Option NodeData :=
  (nodes.find? (fun q => q.1 == k)).map (fun q => q.2)

def nodesSet (nodes : List (List String × NodeData)) (k : List String)
    (f : NodeData → NodeData) : List (List String × NodeData) :=
  nodes.map (fun q => if q.1 == k then (q.1, f q.2) else q)

/-- `parent.children.push(node)` on the parent's stored key list. -/
def addChildKey (nodes : List (List String × NodeData)) (parentKey k : List String) :
    List (List String × NodeData) :=
  nodesSet nodes parentKey (fun d => { d with childKeys := d.childKeys ++ [k] })

/-- The fields a freshly created tree node starts with (count 0; the mtime is
immediately maxed by the accumulation step of the same iteration). -/
def freshSegNode (g : SessionGroup) (seg : String) : NodeData :=
  { name := seg, latestMtime := g.latestMtime, sessionsCount := 0,
    projectSlug := none, childKeys := [] }

/-- The `if (!node)` half of one `segments.forEach` iteration: create the
node of the cumulative path if absent and attach it to its parent's children
list or to the root list. -/
def insertSegNode (g : SessionGroup) (seg : String) (pre : List String)
    (st : TreeState) : TreeState :=
  match nodesGet st.nodes (pre ++ [seg]) with
  | some _ => st
  | none =>
    if pre.isEmpty then
      { nodes := st.nodes ++ [(pre ++ [seg], freshSegNode g seg)],
        roots := st.roots ++ [pre ++ [seg]] }
    else
      { nodes := addChildKey (st.nodes ++ [(pre ++ [seg], freshSegNode g seg)]) pre (pre ++ [seg]),
        roots := st.roots }

/-- The accumulation half of the iteration: max the mtime, add the group's
session count, set the slug on the terminal segment. -/
def bumpSegNode (g : SessionGroup) (isLast : Bool) (k : List String)
    (st : TreeState) : TreeState :=
  { st with
    nodes := nodesSet st.nodes k (fun d =>
      { d with
        latestMtime := max d.latestMtime g.latestMtime
        sessionsCount := d.sessionsCount + g.sessions.length
        projectSlug := if isLast then some g.projectSlug else d.projectSlug }) }

/-- One iteration of `segments.forEach` in `buildProjectTree` (App.tsx
2040–2066): create-or-reuse the node of the cumulative path, attach it to its
parent or to the root list on creation, then accumulate mtime/count and set
the slug on the terminal segment. -/
def processSegment (g : SessionGroup) (isLast : Bool) (seg : String)
    (pre : List String) (st : TreeState) : TreeState :=
  bumpSegNode g isLast (pre ++ [seg]) (insertSegNode g seg pre st)

/-- The walk over one group's segments, left to right, carrying the cumulative
path (the `parent` variable of the source always holds the node of the
cumulative path so far, so it is recomputed from the key rather than carried). -/
def processGroupSegs (g : SessionGroup) : List String → List String → TreeState → TreeState
  | _, [], st => st
  | pre, seg :: rest, st =>
    processGroupSegs g (pre ++ [seg]) rest (processSegment g rest.isEmpty seg pre st)

/-- The `groups.forEach` phase of `buildProjectTree`. -/
def buildProjectTreeState (groups : List SessionGroup) : TreeState :=
  groups.foldl (fun st g => processGroupSegs g [] (splitPath g.project) st) ⟨[], []⟩

structure ProjectNode where
  id : String
  name : String
  path : String
  latestMtime : Int
  sessionsCount : Nat
  projectSlug : Option String
  children : List ProjectNode

/-- The sibling comparator `(a, b) => b.latestMtime - a.latestMtime` with
`a.name.localeCompare(b.name)` on ties: descending mtime, ascending name.
Default-locale collation is environment-dependent; it is modelled by
code-point order, and no claim proved below depends on the tie order. -/
def nodeBefore (a b : ProjectNode) : Bool :=
  if a.latestMtime != b.latestMtime then b.latestMtime < a.latestMtime
  else (compare a.name b.name).isLE

/-- Stable insertion for the sibling sort (`nodes.sort(...)` is stable). -/
def insertNode (x : ProjectNode) : List ProjectNode → List ProjectNode
  | [] => [x]
  | y :: ys => if nodeBefore x y then x :: y :: ys else y :: insertNode x ys

def sortSiblings (l : List ProjectNode) : List ProjectNode :=
  l.foldr insertNode []

/-- Reading the finished object graph back as a tree (`sortNodes` applied on
the way out).  Child keys strictly extend their parent's key, so the depth is
bounded by the number of stored nodes and the fuel used by `buildProjectTree`
below never truncates. -/
def materializeNode (st : TreeState) : Nat → List String → Option ProjectNode
  | 0, _ => none
  | fuel + 1, k =>
    match nodesGet st.nodes k with
    | none => none
    | some d =>
      some { id := String.intercalate "/" k
             name := d.name
             path := String.intercalate "/" k
             latestMtime := d.latestMtime
             sessionsCount := d.sessionsCount
             projectSlug := d.projectSlug
             children := sortSiblings (d.childKeys.filterMap
               (fun ck => materializeNode st fuel ck)) }

/-- `buildProjectTree(groups)` (App.tsx 2032). -/
def buildProjectTree (groups : List SessionGroup) : List ProjectNode :=
  let st := buildProjectTreeState groups
  sortSiblings (st.roots.filterMap (fun k => materializeNode st (st.nodes.length + 1) k))

/-! ### Tree filtering (`filterProjectTree`, App.tsx 2083–2104) -/

/-- `t` is a leading block of `s` (character-level `startsWith`). -/
def charsHaveLead (t : List Char) (s : List Char) : Bool :=
  match t, s with
  | [], _ => true
  | _, [] => false
  | a :: ts, b :: ss => a == b && charsHaveLead ts ss

/-- `s.includes(t)` at the character level. -/
def charsContain (t : List Char) : List Char → Bool
  | [] => t.isEmpty
  | c :: rest => charsHaveLead t (c :: rest) || charsContain t rest

/-- `node.name.toLowerCase().includes(trimmed) ||
node.path.toLowerCase().includes(trimmed)`. -/
def nodeMatches (t : String) (n : ProjectNode) : Bool :=
  charsContain t.toList (n.name.toList.map charLower) ||
    charsContain t.toList (n.path.toList.map charLower)

mutual

/-- One node of the source's recursive `filterNodes`: filter the children,
keep the node (with the filtered children) iff it matches or some child
survived. -/
def filterNode (t : String) : ProjectNode → Option ProjectNode
  | ⟨i, nm, p, lm, sc, ps, children⟩ =>
    if nodeMatches t ⟨i, nm, p, lm, sc, ps, children⟩ || !(filterNodes t children).isEmpty then
      some ⟨i, nm, p, lm, sc, ps, filterNodes t children⟩
    else none

/-- The recursive `filterNodes` of the source, as the list traversal pushing
each kept node. -/
def filterNodes (t : String) : List ProjectNode → List ProjectNode
  | [] => []
  | n :: rest =>
    match filterNode t n with
    | some m => m :: filterNodes t rest
    | none => filterNodes t rest

end

/-- `query.trim().toLowerCase()`. -/
def normalizeQuery (query : String) : String :=
  String.mk ((trimChars query.toList).map charLower)

/-- `filterProjectTree(nodes, query)` (App.tsx 2083). -/
def filterProjectTree (nodes : List ProjectNode) (query : String) : List ProjectNode :=
  if normalizeQuery query = "" then nodes else filterNodes (normalizeQuery query) nodes

/-! ### Spec-side notions used to state the tree claims -/

/-- A node's key lies at or above a group's project path: the claim's
"groups whose project path starts at or below that node". -/
def isUnder (k : List String) (g : SessionGroup) : Bool :=
  k.isPrefixOf (splitPath g.project)

/-- The aggregated (sessionsCount, latestMtime) observation of one stored
node. -/
def nodeStat (st : TreeState) (k : List String) : Option (Nat × Int) :=
  (nodesGet st.nodes k).map (fun d => (d.sessionsCount, d.latestMtime))

/-- Invariant of the tree-building fold after processing the groups `done`:
the empty key is never a node, and every node's count is the sum — and its
mtime the max — over the processed groups lying at or below the node's path. -/
def TreeInv (done : List SessionGroup) (st : TreeState) : Prop :=
  nodesGet st.nodes [] = none ∧
  ∀ k : List String, k ≠ [] →
    match nodeStat st k with
    | none => done.filter (isUnder k) = []
    | some (c, m) =>
      c = ((done.filter (isUnder k)).map (fun g => g.sessions.length)).sum ∧
      (∃ g ∈ done.filter (isUnder k), m = g.latestMtime) ∧
      (∀ g ∈ done.filter (isUnder k), g.latestMtime ≤ m)

/-- Occurrence of a node anywhere in a forest (a root or a descendant). -/
inductive Occurs : ProjectNode → List ProjectNode → Prop where
  | self {n m : ProjectNode} {ns : List ProjectNode} : m ∈ ns → n = m → Occurs n ns
  | desc {n m : ProjectNode} {ns : List ProjectNode} :
      m ∈ ns → Occurs n m.children → Occurs n ns

/-- A node survives filtering iff it matches the query itself or some
descendant does. -/
def Keeps (t : String) (n : ProjectNode) : Prop :=
  nodeMatches t n = true ∨ ∃ d, Occurs d n.children ∧ nodeMatches t d = true

/-! ### Concrete example records used by counterexamples and witnesses -/

/-- A syntactically valid user record whose content array holds a JSON null
followed by a `tool_use` item (the parse of
`{"type":"user","message":{"content":[null,{"type":"tool_use","id":"t1"}]}}`). -/
def dataNullTool : Json :=
  Json.obj
    [("type", Json.str "user"),
     ("message", Json.obj
       [("content", Json.arr
         [Json.null, Json.obj [("type", Json.str "tool_use"), ("id", Json.str "t1")]])])]

/-- A user record whose content is a single `tool_use` item. -/
def dataToolUser : Json :=
  Json.obj
    [("type", Json.str "user"),
     ("message", Json.obj
       [("content", Json.arr
         [Json.obj [("type", Json.str "tool_use"), ("id", Json.str "t1")]])])]

/-- A JSON-parser stub whose successful result is `dataNullTool` on every
line, standing in for `JSON.parse` on that record's text. -/
def jpNullTool : String → Except String Json :=
  fun _ => Except.ok dataNullTool

/-- A date runtime stub: no string parses, epochs format as their decimal. -/
def rtTrivial : JsDateRuntime :=
  ⟨fun _ => none, fun n => toString n⟩

/-- A JSON-parser stub accepting only the line `{}`, every other line failing
with a fixed nonempty syntax-error message, as `JSON.parse` would. -/
def jpStub : String → Except String Json :=
  fun s => if s = "{}" then Except.ok (Json.obj []) else Except.error "Unexpected token"

/-- A parsed file-history-snapshot entry tracking `a.txt` at one version. -/
def snapEntryV (v : Int) (fn : String) : ParsedEntry :=
  { id := "s", raw := "", category := .snapshot,
    data := some (Json.obj
      [("type", Json.str "file-history-snapshot"),
       ("snapshot", Json.obj
         [("trackedFileBackups", Json.obj
           [("a.txt", Json.obj
             [("backupFileName", Json.str fn), ("version", Json.num v)])])])]) }

/-- Snapshot entries with one duplicated (path, backup, version) triple and
out-of-order versions. -/
def exHistoryEntries : List ParsedEntry :=
  [snapEntryV 3 "b3", snapEntryV 1 "b1", snapEntryV 3 "b3", snapEntryV 2 "b2"]

/-- Session listings under the `Foo/Bar` and `Foo/Baz` projects. -/
def exS1 : SessionListing := ⟨"s1", "p/foo-bar/s1.jsonl", "Foo/Bar", "foo-bar", 100, 10, "disk"⟩

def exS2 : SessionListing := ⟨"s2", "p/foo-baz/s2.jsonl", "Foo/Baz", "foo-baz", 200, 20, "disk"⟩

def exS3 : SessionListing := ⟨"s3", "p/foo-baz/s3.jsonl", "Foo/Baz", "foo-baz", 150, 30, "disk"⟩

/-- One session group under `Foo/Bar` (latest mtime 100). -/
def gBar : SessionGroup := ⟨"Foo/Bar", "foo-bar", 100, [exS1]⟩

/-- Two sessions under `Foo/Baz` (latest mtime 200). -/
def gBaz : SessionGroup := ⟨"Foo/Baz", "foo-baz", 200, [exS2, exS3]⟩

def exGroups : List SessionGroup := [gBar, gBaz]

def exBarNode : ProjectNode := ⟨"Foo/Bar", "Bar", "Foo/Bar", 100, 1, some "foo-bar", []⟩

def exBazNode : ProjectNode := ⟨"Foo/Baz", "Baz", "Foo/Baz", 200, 2, some "foo-baz", []⟩

/-- The root the tree builder produces from `exGroups`: mtime is the max and
the session count the sum over both groups, children sorted by mtime
descending. -/
def exFooNode : ProjectNode := ⟨"Foo", "Foo", "Foo", 200, 3, none, [exBazNode, exBarNode]⟩

/-! ## Theorems

### Differ: helper lemmas -/

theorem foldl_append_eq_flatMap {α β : Type} (g : α → List β) (l : List α) (acc : List β) :
    l.foldl (fun d x => d ++ g x) acc = acc ++ l.flatMap g := by
  induction l generalizing acc with
  | nil => simp
  | cons x xs ih => simp [ih]

theorem computeDiffLines_eq_flatMap (A B : List String) :
    computeDiffLines A B =
      (List.range (max A.length B.length)).flatMap (fun i => diffStep A[i]? B[i]?) := by
  unfold computeDiffLines
  rw [foldl_append_eq_flatMap]
  simp

theorem flatMap_range_succ {δ : Type} (f : Nat → List δ) (n : Nat) :
    (List.range (n + 1)).flatMap f = f 0 ++ (List.range n).flatMap (fun i => f (i + 1)) := by
  rw [List.range_succ_eq_map, List.flatMap_cons, List.flatMap_map]

theorem computeDiffLines_eq_diffRec : ∀ (A B : List String), computeDiffLines A B = diffRec A B
  | [], [] => by simp [computeDiffLines_eq_flatMap, diffRec]
  | a :: as, [] => by
    rw [computeDiffLines_eq_flatMap]
    simp only [List.length_cons, List.length_nil, Nat.max_eq_left (Nat.zero_le _)]
    rw [flatMap_range_succ]
    simp only [List.getElem?_cons_zero, List.getElem?_nil, List.getElem?_cons_succ]
    have ih := computeDiffLines_eq_diffRec as []
    rw [computeDiffLines_eq_flatMap] at ih
    simp only [List.length_nil, Nat.max_eq_left (Nat.zero_le _), List.getElem?_nil] at ih
    rw [ih, diffRec]
    rfl
  | [], b :: bs => by
    rw [computeDiffLines_eq_flatMap]
    simp only [List.length_cons, List.length_nil, Nat.max_eq_right (Nat.zero_le _)]
    rw [flatMap_range_succ]
    simp only [List.getElem?_cons_zero, List.getElem?_nil, List.getElem?_cons_succ]
    have ih := computeDiffLines_eq_diffRec [] bs
    rw [computeDiffLines_eq_flatMap] at ih
    simp only [List.length_nil, Nat.max_eq_right (Nat.zero_le _), List.getElem?_nil] at ih
    rw [ih, diffRec]
    rfl
  | a :: as, b :: bs => by
    rw [computeDiffLines_eq_flatMap]
    simp only [List.length_cons, Nat.succ_max_succ]
    rw [flatMap_range_succ]
    simp only [List.getElem?_cons_zero, List.getElem?_cons_succ]
    have ih := computeDiffLines_eq_diffRec as bs
    rw [computeDiffLines_eq_flatMap] at ih
    rw [ih, diffRec]
    by_cases hab : a = b <;> simp [diffStep, hab]

theorem countKind_append (t : DiffKind) (l₁ l₂ : List DiffLine) :
    countKind t (l₁ ++ l₂) = countKind t l₁ + countKind t l₂ := by
  simp [countKind, List.filter_append]

theorem countKind_cons (t : DiffKind) (d : DiffLine) (l : List DiffLine) :
    countKind t (d :: l) = (if d.type == t then 1 else 0) + countKind t l := by
  by_cases h : d.type == t <;>
    simp [countKind, List.filter_cons, h, Nat.add_comm]

theorem diffRec_context_removed : ∀ A B : List String,
    countKind .context (diffRec A B) + countKind .removed (diffRec A B) = A.length
  | [], [] => by simp [diffRec, countKind]
  | a :: as, [] => by
    have ih := diffRec_context_removed as []
    simp [diffRec, countKind, List.filter_cons] at *
    omega
  | [], b :: bs => by
    have ih := diffRec_context_removed [] bs
    simpa [diffRec, countKind, List.filter_cons] using ih
  | a :: as, b :: bs => by
    have ih := diffRec_context_removed as bs
    by_cases hab : a = b <;>
      simp [diffRec, hab, countKind, List.filter_append, List.filter_cons] at * <;> omega

theorem diffRec_context_added : ∀ A B : List String,
    countKind .context (diffRec A B) + countKind .added (diffRec A B) = B.length
  | [], [] => by simp [diffRec, countKind]
  | a :: as, [] => by
    have ih := diffRec_context_added as []
    simpa [diffRec, countKind, List.filter_cons] using ih
  | [], b :: bs => by
    have ih := diffRec_context_added [] bs
    simp [diffRec, countKind, List.filter_cons] at *
    omega
  | a :: as, b :: bs => by
    have ih := diffRec_context_added as bs
    by_cases hab : a = b <;>
      simp [diffRec, hab, countKind, List.filter_append, List.filter_cons] at * <;> omega

theorem diffRec_self_context : ∀ A : List String, ∀ d ∈ diffRec A A, d.type = .context
  | [] => by simp [diffRec]
  | a :: as => by
    intro d hd
    simp only [diffRec, if_pos rfl, List.cons_append, List.nil_append] at hd
    cases hd with
    | head => rfl
    | tail b h => exact diffRec_self_context as d h

/-- C1: `computeDiff` splits both texts into line sequences A (old) and B
(new) and walks index `0 .. max(len A, len B) - 1`; at an index where both
lines exist and are equal it emits one context line, otherwise a removed line
for A's line (if present) then an added line for B's line (if present); on
`["a","b","c"]` vs `["a","x","c"]` it yields context a, removed b, added x,
context c, and on `["a"]` vs `["a","b"]` it yields context a, added b with no
index error (out-of-range access is `undefined`, handled by the walk). -/
theorem computeDiff_positional_walk :
    (∀ oldText newText : String,
        computeDiff oldText newText =
          (List.range (max (splitNl oldText).length (splitNl newText).length)).flatMap
            (fun i =>
              match (splitNl oldText)[i]?, (splitNl newText)[i]? with
              | some a, some b =>
                  if a = b then [⟨DiffKind.context, a⟩]
                  else [⟨DiffKind.removed, a⟩, ⟨DiffKind.added, b⟩]
              | some a, none => [⟨DiffKind.removed, a⟩]
              | none, some b => [⟨DiffKind.added, b⟩]
              | none, none => [])) ∧
      computeDiffLines ["a", "b", "c"] ["a", "x", "c"] =
        [⟨DiffKind.context, "a"⟩, ⟨DiffKind.removed, "b"⟩, ⟨DiffKind.added, "x"⟩,
          ⟨DiffKind.context, "c"⟩] ∧
      computeDiffLines ["a"] ["a", "b"] =
        [⟨DiffKind.context, "a"⟩, ⟨DiffKind.added, "b"⟩] := by
  refine ⟨fun o n => ?_, by rfl, by rfl⟩
  exact computeDiffLines_eq_flatMap (splitNl o) (splitNl n)

/-- C10: line conservation of the diff — every old line yields exactly one
context-or-removed output line and every new line exactly one
context-or-added output line, so context+removed counts the old lines and
context+added counts the new lines; in particular a text diffed against
itself yields only context lines. -/
theorem computeDiff_line_conservation :
    ∀ oldText newText : String,
      countKind DiffKind.context (computeDiff oldText newText) +
          countKind DiffKind.removed (computeDiff oldText newText) =
        (splitNl oldText).length ∧
      countKind DiffKind.context (computeDiff oldText newText) +
          countKind DiffKind.added (computeDiff oldText newText) =
        (splitNl newText).length ∧
      ∀ d ∈ computeDiff oldText oldText, d.type = DiffKind.context := by
  intro o n
  have h1 : computeDiff o n = diffRec (splitNl o) (splitNl n) :=
    computeDiffLines_eq_diffRec _ _
  have h2 : computeDiff o o = diffRec (splitNl o) (splitNl o) :=
    computeDiffLines_eq_diffRec _ _
  rw [h1, h2]
  exact ⟨diffRec_context_removed _ _, diffRec_context_added _ _, diffRec_self_context _⟩

/-! ### Classifier: helper lemmas -/

theorem someToolItem_cons_notNull (x : Json) (rest : List Json) (hx : x.isNull = false) :
    someToolItem (x :: rest) = if isToolTyped x then Except.ok true else someToolItem rest := by
  cases x with
  | null => simp [Json.isNull] at hx
  | bool b => rfl
  | num n => rfl
  | str s => rfl
  | arr items => rfl
  | obj fields => rfl

theorem someToolItem_true_iff (items : List Json)
    (hclean : ∀ item ∈ items, item.isNull = false) :
    someToolItem items = Except.ok true ↔ ∃ item ∈ items, isToolTyped item = true := by
  induction items with
  | nil => simp [someToolItem]
  | cons x rest ih =>
    have hx := hclean x (List.mem_cons_self x rest)
    have hrest := ih (fun i hi => hclean i (List.mem_cons_of_mem _ hi))
    rw [someToolItem_cons_notNull x rest hx]
    by_cases ht : isToolTyped x = true
    · rw [if_pos ht]
      constructor
      · intro _
        exact ⟨x, List.mem_cons_self x rest, ht⟩
      · intro _
        rfl
    · rw [if_neg ht, hrest]
      constructor
      · rintro ⟨i, hi, hti⟩
        exact ⟨i, List.mem_cons_of_mem _ hi, hti⟩
      · rintro ⟨i, hi, hti⟩
        rcases List.mem_cons.mp hi with h | h
        · rw [h] at hti
          exact absurd hti ht
        · exact ⟨i, h, hti⟩

theorem someToolItem_false_iff (items : List Json)
    (hclean : ∀ item ∈ items, item.isNull = false) :
    someToolItem items = Except.ok false ↔ ∀ item ∈ items, isToolTyped item = false := by
  induction items with
  | nil => simp [someToolItem]
  | cons x rest ih =>
    have hx := hclean x (List.mem_cons_self x rest)
    have hrest := ih (fun i hi => hclean i (List.mem_cons_of_mem _ hi))
    rw [someToolItem_cons_notNull x rest hx]
    by_cases ht : isToolTyped x = true
    · rw [if_pos ht]
      simp only [List.mem_cons]
      constructor
      · intro h
        exact absurd h (by simp)
      · intro h
        have := h x (Or.inl rfl)
        rw [ht] at this
        exact absurd this (by simp)
    · rw [if_neg ht, hrest]
      constructor
      · intro h i hi
        rcases List.mem_cons.mp hi with hh | hh
        · rw [hh]
          exact Bool.eq_false_iff.mpr ht
        · exact h i hh
      · intro h i hi
        exact h i (List.mem_cons_of_mem _ hi)

theorem someToolItem_null_error (pre rest : List Json)
    (hclean : ∀ item ∈ pre, item.isNull = false ∧ isToolTyped item = false) :
    someToolItem (pre ++ Json.null :: rest) = Except.error nullItemTypeError := by
  induction pre with
  | nil => simp [someToolItem]
  | cons x xs ih =>
    obtain ⟨hnull, htool⟩ := hclean x (List.mem_cons_self x xs)
    rw [List.cons_append, someToolItem_cons_notNull x _ hnull, if_neg (by simp [htool])]
    exact ih (fun i hi => hclean i (List.mem_cons_of_mem _ hi))

theorem recordType_not_null (data : Json) (hnn : data.isNull = false) :
    recordType data = Except.ok (data.getField "type") := by
  cases data with
  | null => simp [Json.isNull] at hnn
  | bool b => rfl
  | num n => rfl
  | str s => rfl
  | arr items => rfl
  | obj fields => rfl

theorem jsEqStr_getField_not_null (data : Json) (key s : String)
    (h : jsEqStr (data.getField key) s = true) : data.isNull = false := by
  cases data with
  | null => simp [Json.getField, jsEqStr] at h
  | bool b => rfl
  | num n => rfl
  | str s2 => rfl
  | arr items => rfl
  | obj fields => rfl

theorem jsEqStr_ne (v : Option Json) (a b : String) (h : jsEqStr v a = true) (hab : b ≠ a) :
    jsEqStr v b = false := by
  cases v with
  | none => simp [jsEqStr] at h
  | some j =>
    cases j <;> simp [jsEqStr] at h ⊢
    rw [h]
    exact fun hh => hab hh.symm

theorem someToolItem_clean_ok (items : List Json)
    (hclean : ∀ item ∈ items, item.isNull = false) :
    someToolItem items = Except.ok true ∨ someToolItem items = Except.ok false := by
  induction items with
  | nil => exact Or.inr rfl
  | cons x rest ih =>
    have hx := hclean x (List.mem_cons_self x rest)
    rw [someToolItem_cons_notNull x rest hx]
    by_cases ht : isToolTyped x = true
    · exact Or.inl (by rw [if_pos ht])
    · rw [if_neg ht]
      exact ih (fun i hi => hclean i (List.mem_cons_of_mem _ hi))

/-- C2 counterexample: the parse of the valid JSON line
`{"type":"user","message":{"content":[null,{"type":"tool_use","id":"t1"}]}}`
is a user record whose content holds a `tool_use` item, yet reading `.type`
of the preceding null item throws, so the classifier yields an error — the
entry's category is `error`, not `tool`, contradicting the claim's
"regardless of what other content items are present". -/
theorem detectCategory_null_item_counterexample :
    jsEqStr (dataNullTool.getField "type") "user" = true ∧
    (∃ item ∈ jsItems (messageContent dataNullTool), isToolTyped item = true) ∧
    detectCategory dataNullTool = Except.error nullItemTypeError ∧
    detectCategory dataNullTool ≠ Except.ok EntryCategory.tool ∧
    (parseClaudeJsonl jpNullTool rtTrivial "x").map (fun e => e.category) =
      [EntryCategory.error] := by
  refine ⟨rfl,
    ⟨Json.obj [("type", Json.str "tool_use"), ("id", Json.str "t1")],
      List.Mem.tail _ (List.Mem.head _), rfl⟩, rfl, ?_, rfl⟩
  intro h
  rw [show detectCategory dataNullTool = Except.error nullItemTypeError from rfl] at h
  exact Except.noConfusion h

/-- C2 (amended): classification is the priority list summary,
file-history-snapshot, queue-operation, system, user/assistant, other, first
match winning; for a user/assistant record whose content items are all
non-null, the category is `tool` exactly when some item is `tool_use` or
`tool_result` and `message` exactly when none is — but a null content item
reached before any tool item makes the classifier throw (the line then
becomes an error entry), so the tool/message dichotomy holds only on
null-free content; and a record that is JSON null itself throws on the very
first property read, so a `null` line is an error entry, never `other` —
the catch-all `other` covers only non-null records failing every test. -/
theorem detectCategory_priority_amended (data : Json) :
    (jsEqStr (data.getField "type") "summary" = true →
      detectCategory data = Except.ok EntryCategory.summary) ∧
    (jsEqStr (data.getField "type") "file-history-snapshot" = true →
      detectCategory data = Except.ok EntryCategory.snapshot) ∧
    (jsEqStr (data.getField "type") "queue-operation" = true →
      detectCategory data = Except.ok EntryCategory.queue) ∧
    (jsEqStr (data.getField "type") "system" = true →
      detectCategory data = Except.ok EntryCategory.system) ∧
    ((jsEqStr (data.getField "type") "assistant" = true ∨
        jsEqStr (data.getField "type") "user" = true) →
      ((∀ item ∈ jsItems (messageContent data), item.isNull = false) →
        (detectCategory data = Except.ok EntryCategory.tool ↔
          ∃ item ∈ jsItems (messageContent data), isToolTyped item = true) ∧
        (detectCategory data = Except.ok EntryCategory.message ↔
          ∀ item ∈ jsItems (messageContent data), isToolTyped item = false)) ∧
      (∀ pre rest, jsItems (messageContent data) = pre ++ Json.null :: rest →
        (∀ item ∈ pre, item.isNull = false ∧ isToolTyped item = false) →
        detectCategory data = Except.error nullItemTypeError)) ∧
    (data.isNull = false →
      jsEqStr (data.getField "type") "summary" = false →
      jsEqStr (data.getField "type") "file-history-snapshot" = false →
      jsEqStr (data.getField "type") "queue-operation" = false →
      jsEqStr (data.getField "type") "system" = false →
      jsEqStr (data.getField "type") "assistant" = false →
      jsEqStr (data.getField "type") "user" = false →
      detectCategory data = Except.ok EntryCategory.other) ∧
    detectCategory Json.null = Except.error nullItemTypeError ∧
    (∀ (jp : String → Except String Json) (rt : JsDateRuntime) (i : Nat) (line : String),
      jp line = Except.ok Json.null →
      parseLine jp rt i line =
        { id := "error-" ++ toString i, raw := line,
          error := some nullRecordTypeError, category := EntryCategory.error }) := by
  refine ⟨?_, ?_, ?_, ?_, ?_, ?_, rfl, ?_⟩
  · intro h
    have hnn := jsEqStr_getField_not_null data "type" "summary" h
    simp [detectCategory, recordType_not_null data hnn, h]
  · intro h
    have hnn := jsEqStr_getField_not_null data "type" "file-history-snapshot" h
    have h1 := jsEqStr_ne _ _ "summary" h (by decide)
    simp [detectCategory, recordType_not_null data hnn, h, h1]
  · intro h
    have hnn := jsEqStr_getField_not_null data "type" "queue-operation" h
    have h1 := jsEqStr_ne _ _ "summary" h (by decide)
    have h2 := jsEqStr_ne _ _ "file-history-snapshot" h (by decide)
    simp [detectCategory, recordType_not_null data hnn, h, h1, h2]
  · intro h
    have hnn := jsEqStr_getField_not_null data "type" "system" h
    have h1 := jsEqStr_ne _ _ "summary" h (by decide)
    have h2 := jsEqStr_ne _ _ "file-history-snapshot" h (by decide)
    have h3 := jsEqStr_ne _ _ "queue-operation" h (by decide)
    simp [detectCategory, recordType_not_null data hnn, h, h1, h2, h3]
  · intro h
    have hnn : data.isNull = false := by
      rcases h with h | h
      · exact jsEqStr_getField_not_null data "type" "assistant" h
      · exact jsEqStr_getField_not_null data "type" "user" h
    have h1 : jsEqStr (data.getField "type") "summary" = false := by
      rcases h with h | h
      · exact jsEqStr_ne _ _ "summary" h (by decide)
      · exact jsEqStr_ne _ _ "summary" h (by decide)
    have h2 : jsEqStr (data.getField "type") "file-history-snapshot" = false := by
      rcases h with h | h
      · exact jsEqStr_ne _ _ "file-history-snapshot" h (by decide)
      · exact jsEqStr_ne _ _ "file-history-snapshot" h (by decide)
    have h3 : jsEqStr (data.getField "type") "queue-operation" = false := by
      rcases h with h | h
      · exact jsEqStr_ne _ _ "queue-operation" h (by decide)
      · exact jsEqStr_ne _ _ "queue-operation" h (by decide)
    have h4 : jsEqStr (data.getField "type") "system" = false := by
      rcases h with h | h
      · exact jsEqStr_ne _ _ "system" h (by decide)
      · exact jsEqStr_ne _ _ "system" h (by decide)
    have hcond : (jsEqStr (data.getField "type") "assistant" ||
        jsEqStr (data.getField "type") "user") = true := by
      rcases h with h | h <;> simp [h]
    have hdc : detectCategory data =
        match containsToolContent (messageContent data) with
        | .error e => .error e
        | .ok true => .ok .tool
        | .ok false => .ok .message := by
      simp [detectCategory, recordType_not_null data hnn, h1, h2, h3, h4, hcond]
    constructor
    · intro hclean
      rcases someToolItem_clean_ok (jsItems (messageContent data)) hclean with hc | hc
      · rw [hdc]
        rw [show containsToolContent (messageContent data) = Except.ok true from hc]
        constructor
        · exact ⟨fun _ => (someToolItem_true_iff _ hclean).mp hc, fun _ => rfl⟩
        · constructor
          · intro hh
            exact absurd hh (by simp)
          · intro hall
            have := (someToolItem_false_iff _ hclean).mpr hall
            rw [hc] at this
            exact absurd this (by simp)
      · rw [hdc]
        rw [show containsToolContent (messageContent data) = Except.ok false from hc]
        constructor
        · constructor
          · intro hh
            exact absurd hh (by simp)
          · intro hex
            have := (someToolItem_true_iff _ hclean).mpr hex
            rw [hc] at this
            exact absurd this (by simp)
        · exact ⟨fun _ => (someToolItem_false_iff _ hclean).mp hc, fun _ => rfl⟩
    · intro pre rest hsplit hcleanpre
      have herr : containsToolContent (messageContent data) =
          Except.error nullItemTypeError := by
        unfold containsToolContent
        rw [hsplit]
        exact someToolItem_null_error pre rest hcleanpre
      rw [hdc, herr]
  · intro hnn h1 h2 h3 h4 h5 h6
    simp [detectCategory, recordType_not_null data hnn, h1, h2, h3, h4, h5, h6]
  · intro jp rt i line hjp
    rw [parseLine, hjp]
    rfl

/-- Witness for the amended C2 theorem at concrete records: a user record
with a single `tool_use` content item classifies as `tool`, and one with
plain text content classifies as `message`. -/
theorem detectCategory_priority_amended_witness :
    detectCategory dataToolUser = Except.ok EntryCategory.tool := by
  have h := (detectCategory_priority_amended dataToolUser).2.2.2.2.1 (Or.inr rfl)
  have hclean : ∀ item ∈ jsItems (messageContent dataToolUser), item.isNull = false := by
    intro i hi
    cases hi with
    | head => rfl
    | tail _ hh => cases hh
  exact ((h.1 hclean).1).mpr ⟨_, List.Mem.head _, rfl⟩

/-! ### Parser: error isolation -/

theorem mapWithIndex_getElem (f : Nat → String → ParsedEntry) :
    ∀ (l : List String) (i j : Nat),
      (mapWithIndex f i l)[j]? = l[j]?.map (fun line => f (i + j) line)
  | [], i, j => by simp [mapWithIndex]
  | x :: xs, i, 0 => by simp [mapWithIndex]
  | x :: xs, i, j + 1 => by
    simp only [mapWithIndex, List.getElem?_cons_succ]
    rw [mapWithIndex_getElem f xs (i + 1) j]
    have : i + 1 + j = i + (j + 1) := by omega
    rw [this]

/-- C3: a line that fails JSON parsing yields an Entry with category `error`,
a nonempty error message (`JSON.parse` rejections always carry one), id
`"error-" + lineIndex` and no data; the parser is a total function (never
throws) and every line's entry is a function of that line and its index
alone, so other lines are unaffected by a malformed one. -/
theorem parse_error_line_spec
    (jp : String → Except String Json) (rt : JsDateRuntime) (text : String)
    (i : Nat) (line : String) (msg : String)
    (hline : (nonEmptyLines text)[i]? = some line)
    (herr : jp line = Except.error msg)
    (hmsg : msg ≠ "") :
    (parseClaudeJsonl jp rt text)[i]? =
      some { id := "error-" ++ toString i, raw := line, data := none,
             error := some msg, category := .error, timestamp := none, role := none } ∧
    (∃ m, ((parseClaudeJsonl jp rt text)[i]?.bind (fun e => e.error)) = some m ∧ m ≠ "") ∧
    (∀ j line₂, (nonEmptyLines text)[j]? = some line₂ →
      (parseClaudeJsonl jp rt text)[j]? = some (parseLine jp rt j line₂)) := by
  by_cases htext : text = ""
  · rw [htext] at hline
    rw [show nonEmptyLines "" = [] from rfl] at hline
    simp at hline
  · have hidx : ∀ j line₂, (nonEmptyLines text)[j]? = some line₂ →
        (parseClaudeJsonl jp rt text)[j]? = some (parseLine jp rt j line₂) := by
      intro j line₂ hj
      rw [parseClaudeJsonl, if_neg htext, mapWithIndex_getElem, hj]
      simp
    have h1 := hidx i line hline
    have hentry : parseLine jp rt i line =
        { id := "error-" ++ toString i, raw := line, data := none,
          error := some msg, category := .error, timestamp := none, role := none } := by
      rw [parseLine, herr]
    refine ⟨by rw [h1, hentry], ⟨msg, ?_, hmsg⟩, hidx⟩
    rw [h1, hentry]
    rfl

/-- Witness for C3 at a concrete two-line input whose second line is not
valid JSON. -/
theorem parse_error_line_spec_witness :
    (parseClaudeJsonl jpStub rtTrivial "{}\nnot json")[1]? =
      some { id := "error-" ++ toString 1, raw := "not json", data := none,
             error := some "Unexpected token", category := .error,
             timestamp := none, role := none } :=
  (parse_error_line_spec jpStub rtTrivial "{}\nnot json" 1 "not json"
    "Unexpected token" (by rfl) (by rfl) (by decide)).1

/-! ### Timestamp resolver -/

/-- C9: the timestamp resolver accepts a numeric epoch or a string, parses it
as a date and formats it; absent or falsy values, non-date shapes, invalid
string dates and out-of-range epochs all yield an absent timestamp.  The
resolver is a total function (never throws), and its only non-absent outputs
are formats of a time derived from the input value — never of the current
time. -/
theorem formatTimestamp_spec (rt : JsDateRuntime) :
    formatTimestamp rt none = none ∧
    (∀ v : Json, jsTruthy v = false → formatTimestamp rt (some v) = none) ∧
    (∀ n : Int, jsTruthy (Json.num n) = true →
      formatTimestamp rt (some (Json.num n)) =
        if epochInRange n then some (rt.formatLocale n) else none) ∧
    (∀ s : String, jsTruthy (Json.str s) = true →
      formatTimestamp rt (some (Json.str s)) =
        (rt.parseDateString s).map rt.formatLocale) ∧
    (∀ v : Json, (∀ n, v ≠ Json.num n) → (∀ s, v ≠ Json.str s) →
      formatTimestamp rt (some v) = none) ∧
    (∀ v : Option Json,
      formatTimestamp rt v = none ∨
      (∃ n : Int, v = some (Json.num n) ∧
        formatTimestamp rt v = some (rt.formatLocale n)) ∨
      (∃ s t, v = some (Json.str s) ∧ rt.parseDateString s = some t ∧
        formatTimestamp rt v = some (rt.formatLocale t))) := by
  refine ⟨rfl, ?_, ?_, ?_, ?_, ?_⟩
  · intro v hv
    simp [formatTimestamp, hv]
  · intro n hn
    simp [formatTimestamp, hn]
  · intro s hs
    simp only [formatTimestamp, hs, Bool.not_true, if_false]
    cases rt.parseDateString s <;> rfl
  · intro v hnum hstr
    cases v with
    | num n => exact absurd rfl (hnum n)
    | str s => exact absurd rfl (hstr s)
    | null => rfl
    | bool b => by_cases hb : jsTruthy (Json.bool b) = false <;> simp [formatTimestamp, *] at *
    | arr items => simp [formatTimestamp, jsTruthy]
    | obj fields => simp [formatTimestamp, jsTruthy]
  · intro v
    match v with
    | none => exact Or.inl rfl
    | some (Json.num n) =>
      by_cases hn : jsTruthy (Json.num n) = false
      · exact Or.inl (by simp [formatTimestamp, hn])
      · rw [Bool.not_eq_false] at hn
        by_cases hr : epochInRange n = true
        · exact Or.inr (Or.inl ⟨n, rfl, by simp [formatTimestamp, hn, hr]⟩)
        · exact Or.inl (by simp [formatTimestamp, hn, hr])
    | some (Json.str s) =>
      by_cases hs : jsTruthy (Json.str s) = false
      · exact Or.inl (by simp [formatTimestamp, hs])
      · rw [Bool.not_eq_false] at hs
        match hps : rt.parseDateString s with
        | none => exact Or.inl (by simp [formatTimestamp, hs, hps])
        | some t =>
          exact Or.inr (Or.inr ⟨s, t, rfl, hps, by simp [formatTimestamp, hs, hps]⟩)
    | some Json.null => exact Or.inl rfl
    | some (Json.bool b) =>
      by_cases hb : jsTruthy (Json.bool b) = false
      · exact Or.inl (by simp [formatTimestamp, hb])
      · rw [Bool.not_eq_false] at hb
        exact Or.inl (by simp [formatTimestamp, hb])
    | some (Json.arr items) => exact Or.inl (by simp [formatTimestamp, jsTruthy])
    | some (Json.obj fields) => exact Or.inl (by simp [formatTimestamp, jsTruthy])

/-- Witness for C9 at the concrete runtime stub: a truthy in-range numeric
epoch formats, applied through the theorem. -/
theorem formatTimestamp_spec_witness :
    formatTimestamp rtTrivial (some (Json.num 5)) =
      if epochInRange 5 then some (rtTrivial.formatLocale 5) else none :=
  (formatTimestamp_spec rtTrivial).2.2.1 5 (by decide)

/-! ### Tool-use correlator: lookup-object lemmas -/

theorem getKey_cons (x : String × ToolUseInfo) (xs : List (String × ToolUseInfo)) (k : String) :
    getKey (x :: xs) k = if x.1 == k then some x.2 else getKey xs k := by
  by_cases hx : x.1 == k
  · simp [getKey, List.find?_cons_of_pos _ hx, hx]
  · simp [getKey, List.find?_cons_of_neg _ hx, hx]

theorem getKey_append (m1 m2 : List (String × ToolUseInfo)) (k : String) :
    getKey (m1 ++ m2) k = (getKey m1 k).or (getKey m2 k) := by
  simp only [getKey, List.find?_append]
  cases m1.find? (fun p => p.1 == k) <;> simp

theorem getKey_not_found (m : List (String × ToolUseInfo)) (k : String)
    (h : m.any (fun p => p.1 == k) = false) : getKey m k = none := by
  induction m with
  | nil => rfl
  | cons x xs ih =>
    rw [List.any_cons] at h
    rcases Bool.or_eq_false_iff.mp h with ⟨hx, hxs⟩
    rw [getKey_cons, if_neg (by simp [hx])]
    exact ih hxs

theorem getKey_map_replace_found (m : List (String × ToolUseInfo)) (k : String) (v : ToolUseInfo)
    (h : m.any (fun p => p.1 == k) = true) :
    getKey (m.map (fun p => if p.1 == k then (k, v) else p)) k = some v := by
  induction m with
  | nil => simp at h
  | cons x xs ih =>
    by_cases hx : x.1 == k
    · rw [List.map_cons, if_pos hx, getKey_cons, if_pos (by simp)]
    · rw [List.map_cons, if_neg hx, getKey_cons, if_neg (by simp [hx])]
      have hx2 : (x.1 == k) = false := Bool.eq_false_iff.mpr hx
      rw [List.any_cons, hx2, Bool.false_or] at h
      exact ih h

theorem getKey_map_replace_other (m : List (String × ToolUseInfo)) (k : String) (v : ToolUseInfo)
    (k2 : String) (hne : k ≠ k2) :
    getKey (m.map (fun p => if p.1 == k then (k, v) else p)) k2 = getKey m k2 := by
  induction m with
  | nil => rfl
  | cons x xs ih =>
    by_cases hx : x.1 == k
    · rw [List.map_cons, if_pos hx, getKey_cons, getKey_cons]
      have hxk : x.1 = k := by simpa using hx
      rw [if_neg (by simp [hne]), if_neg (by simp [hxk, hne])]
      exact ih
    · rw [List.map_cons, if_neg hx, getKey_cons, getKey_cons]
      by_cases hx2 : x.1 == k2
      · rw [if_pos hx2, if_pos hx2]
      · rw [if_neg hx2, if_neg hx2]
        exact ih

theorem getKey_setKey_same (m : List (String × ToolUseInfo)) (k : String) (v : ToolUseInfo) :
    getKey (setKey m k v) k = some v := by
  unfold setKey
  by_cases h : m.any (fun p => p.1 == k)
  · rw [if_pos h]
    exact getKey_map_replace_found m k v h
  · rw [if_neg h, getKey_append, getKey_not_found m k (Bool.eq_false_iff.mpr h)]
    rw [getKey_cons]
    simp

theorem getKey_setKey_other (m : List (String × ToolUseInfo)) (k : String) (v : ToolUseInfo)
    (k2 : String) (hne : k ≠ k2) :
    getKey (setKey m k v) k2 = getKey m k2 := by
  unfold setKey
  by_cases h : m.any (fun p => p.1 == k)
  · rw [if_pos h]
    exact getKey_map_replace_other m k v k2 hne
  · rw [if_neg h, getKey_append, getKey_cons]
    rw [if_neg (by simp [hne])]
    cases hm : getKey m k2 <;> rfl

theorem getKey_foldl_setKey (ws : List (String × ToolUseInfo))
    (m : List (String × ToolUseInfo)) (k : String) :
    getKey (ws.foldl (fun acc kv => setKey acc kv.1 kv.2) m) k =
      match ws.reverse.find? (fun p => p.1 == k) with
      | some p => some p.2
      | none => getKey m k := by
  induction ws generalizing m with
  | nil => rfl
  | cons w ws ih =>
    rw [List.foldl_cons, ih, List.reverse_cons, List.find?_append]
    cases hfind : ws.reverse.find? (fun p => p.1 == k) with
    | some p => rfl
    | none =>
      by_cases hk : w.1 == k
      · have hfw : List.find? (fun p => p.1 == k) [w] = some w :=
          @List.find?_cons_of_pos _ (fun p => p.1 == k) w [] hk
        rw [hfw]
        have hwk : w.1 = k := by simpa using hk
        show getKey (setKey m w.1 w.2) k = some w.2
        rw [← hwk, getKey_setKey_same]
      · have hfw : List.find? (fun p => p.1 == k) [w] = none := by
          rw [@List.find?_cons_of_neg _ (fun p => p.1 == k) w [] hk]
          rfl
        rw [hfw]
        show getKey (setKey m w.1 w.2) k = getKey m k
        exact getKey_setKey_other m w.1 w.2 k (by simpa using hk)

theorem applyToolUsePass_eq_foldl_flatMap (entries : List ParsedEntry)
    (m : List (String × ToolUseInfo)) :
    applyToolUsePass m entries =
      (entries.flatMap entryToolUses).foldl (fun acc kv => setKey acc kv.1 kv.2) m := by
  induction entries generalizing m with
  | nil => rfl
  | cons e es ih =>
    rw [applyToolUsePass, List.foldl_cons, List.flatMap_cons, List.foldl_append]
    exact ih _

/-- C4: `buildToolUseLookup` is deterministic and its scan is idempotent —
re-running the full pass over the same entries on an already-built lookup
changes no binding — and it is last-write-wins: the lookup maps each
invocation id to the payload of the LAST `tool_use` item carrying that id in
entry order (none when the id never occurs). -/
theorem buildToolUseLookup_idempotent_lastwrite (entries : List ParsedEntry) :
    buildToolUseLookup entries = buildToolUseLookup entries ∧
    (∀ id : String,
      getKey (applyToolUsePass (buildToolUseLookup entries) entries) id =
        getKey (buildToolUseLookup entries) id) ∧
    (∀ id : String,
      getKey (buildToolUseLookup entries) id =
        match (entries.flatMap entryToolUses).reverse.find? (fun p => p.1 == id) with
        | some p => some p.2
        | none => none) := by
  have hbuild : ∀ id : String,
      getKey (buildToolUseLookup entries) id =
        match (entries.flatMap entryToolUses).reverse.find? (fun p => p.1 == id) with
        | some p => some p.2
        | none => none := by
    intro id
    unfold buildToolUseLookup
    rw [applyToolUsePass_eq_foldl_flatMap, getKey_foldl_setKey]
    cases (entries.flatMap entryToolUses).reverse.find? (fun p => p.1 == id) <;> rfl
  refine ⟨rfl, ?_, hbuild⟩
  intro id
  rw [applyToolUsePass_eq_foldl_flatMap, getKey_foldl_setKey]
  cases hfind : (entries.flatMap entryToolUses).reverse.find? (fun p => p.1 == id) with
  | some p =>
    rw [hbuild id, hfind]
  | none => rfl

/-! ### File-history indexer: index-object and sorting lemmas -/

theorem idxGet_cons (x : String × List FileBackupInfo)
    (xs : List (String × List FileBackupInfo)) (p : String) :
    idxGet (x :: xs) p = if x.1 == p then some x.2 else idxGet xs p := by
  by_cases hx : x.1 == p
  · simp [idxGet, List.find?_cons_of_pos _ hx, hx]
  · simp [idxGet, List.find?_cons_of_neg _ hx, hx]

theorem idxGet_append (m1 m2 : List (String × List FileBackupInfo)) (p : String) :
    idxGet (m1 ++ m2) p = (idxGet m1 p).or (idxGet m2 p) := by
  simp only [idxGet, List.find?_append]
  cases m1.find? (fun q => q.1 == p) <;> simp

theorem idxGet_not_found (m : List (String × List FileBackupInfo)) (p : String)
    (h : m.any (fun q => q.1 == p) = false) : idxGet m p = none := by
  induction m with
  | nil => rfl
  | cons x xs ih =>
    rw [List.any_cons] at h
    rcases Bool.or_eq_false_iff.mp h with ⟨hx, hxs⟩
    rw [idxGet_cons, if_neg (by simp [hx])]
    exact ih hxs

theorem idxGet_map_addinfo_same (xs : List (String × List FileBackupInfo))
    (p : String) (info : FileBackupInfo)
    (hfound : xs.any (fun q => q.1 == p) = true) :
    idxGet (xs.map (fun q => if q.1 == p then (q.1, q.2 ++ [info]) else q)) p =
      some ((idxGet xs p).getD [] ++ [info]) := by
  induction xs with
  | nil => simp at hfound
  | cons x xs ih =>
    by_cases hx : x.1 == p
    · rw [List.map_cons, if_pos hx, idxGet_cons, if_pos hx, idxGet_cons, if_pos hx]
      rfl
    · rw [List.map_cons, if_neg hx, idxGet_cons, if_neg hx, idxGet_cons, if_neg hx]
      rw [List.any_cons, Bool.eq_false_iff.mpr hx, Bool.false_or] at hfound
      exact ih hfound

theorem idxGet_map_addinfo_other (xs : List (String × List FileBackupInfo))
    (p : String) (info : FileBackupInfo) (p2 : String) (hne : p2 ≠ p) :
    idxGet (xs.map (fun q => if q.1 == p then (q.1, q.2 ++ [info]) else q)) p2 =
      idxGet xs p2 := by
  induction xs with
  | nil => rfl
  | cons x xs ih =>
    by_cases hx : x.1 == p
    · rw [List.map_cons, if_pos hx, idxGet_cons, idxGet_cons]
      by_cases hx2 : x.1 == p2
      · have hx1 : x.1 = p := by simpa using hx
        have hx2e : x.1 = p2 := by simpa using hx2
        exact absurd (hx2e.symm.trans hx1) hne
      · rw [if_neg hx2, if_neg hx2]
        exact ih
    · rw [List.map_cons, if_neg hx, idxGet_cons, idxGet_cons]
      by_cases hx2 : x.1 == p2
      · rw [if_pos hx2, if_pos hx2]
      · rw [if_neg hx2, if_neg hx2]
        exact ih

theorem idxGet_idxAppend_same (index : List (String × List FileBackupInfo))
    (p : String) (info : FileBackupInfo) :
    idxGet (idxAppend index p info) p = some ((idxGet index p).getD [] ++ [info]) := by
  unfold idxAppend
  by_cases hany : index.any (fun q => q.1 == p)
  · rw [if_pos hany]
    exact idxGet_map_addinfo_same index p info hany
  · rw [if_neg hany, idxGet_append, idxGet_not_found index p (Bool.eq_false_iff.mpr hany)]
    rw [show idxGet [(p, [info])] p = some [info] from by rw [idxGet_cons, if_pos (by simp)]]
    rfl

theorem idxGet_idxAppend_other (index : List (String × List FileBackupInfo))
    (p : String) (info : FileBackupInfo) (p2 : String) (hne : p2 ≠ p) :
    idxGet (idxAppend index p info) p2 = idxGet index p2 := by
  unfold idxAppend
  by_cases hany : index.any (fun q => q.1 == p)
  · rw [if_pos hany]
    exact idxGet_map_addinfo_other index p info p2 hne
  · rw [if_neg hany, idxGet_append]
    rw [show idxGet [(p, [info])] p2 = none from by
      rw [idxGet_cons, if_neg (by simp; exact fun hh => hne hh.symm)]
      rfl]
    cases idxGet index p2 <;> rfl

theorem idxGet_map_sort (index : List (String × List FileBackupInfo)) (p : String) :
    idxGet (index.map (fun q => (q.1, sortByVersion q.2))) p =
      (idxGet index p).map sortByVersion := by
  induction index with
  | nil => rfl
  | cons x xs ih =>
    rw [List.map_cons, idxGet_cons, idxGet_cons]
    by_cases hx : x.1 == p
    · rw [if_pos hx, if_pos hx]
      rfl
    · rw [if_neg hx, if_neg hx]
      exact ih

theorem insertByVersion_perm (x : FileBackupInfo) (l : List FileBackupInfo) :
    List.Perm (insertByVersion x l) (x :: l) := by
  induction l with
  | nil => exact List.Perm.refl _
  | cons y ys ih =>
    rw [insertByVersion]
    by_cases h : x.version ≤ y.version
    · rw [if_pos h]
    · rw [if_neg h]
      exact List.Perm.trans (List.Perm.cons y ih) (List.Perm.swap x y ys)

theorem insertByVersion_sorted (x : FileBackupInfo) (l : List FileBackupInfo)
    (h : l.Pairwise (fun a b => a.version ≤ b.version)) :
    (insertByVersion x l).Pairwise (fun a b => a.version ≤ b.version) := by
  induction l with
  | nil => simp [insertByVersion]
  | cons y ys ih =>
    rcases List.pairwise_cons.mp h with ⟨hy, hys⟩
    rw [insertByVersion]
    by_cases hxy : x.version ≤ y.version
    · rw [if_pos hxy]
      refine List.pairwise_cons.mpr ⟨?_, h⟩
      intro b hb
      rcases List.mem_cons.mp hb with rfl | hb2
      · exact hxy
      · exact le_trans hxy (hy b hb2)
    · rw [if_neg hxy]
      refine List.pairwise_cons.mpr ⟨?_, ih hys⟩
      intro b hb
      have hb2 := (insertByVersion_perm x ys).mem_iff.mp hb
      rcases List.mem_cons.mp hb2 with rfl | hb3
      · omega
      · exact hy b hb3

theorem sortByVersion_perm (l : List FileBackupInfo) : List.Perm (sortByVersion l) l := by
  induction l with
  | nil => exact List.Perm.refl _
  | cons x xs ih =>
    exact List.Perm.trans (insertByVersion_perm _ _) (List.Perm.cons x ih)

theorem sortByVersion_sorted (l : List FileBackupInfo) :
    (sortByVersion l).Pairwise (fun a b => a.version ≤ b.version) := by
  induction l with
  | nil => simp [sortByVersion]
  | cons x xs ih => exact insertByVersion_sorted x _ ih

theorem foldl_invariant {α β : Type} (P : β → Prop) (step : β → α → β)
    (hstep : ∀ st x, P st → P (step st x)) :
    ∀ (l : List α) (st : β), P st → P (l.foldl step st)
  | [], _, h => h
  | x :: xs, st, h => foldl_invariant P step hstep xs (step st x) (hstep st x h)

theorem histInv_push (st : HistoryState) (p name : String) (ver : Int) (bt : Option Json)
    (h : HistInv st)
    (hnew : st.seen.any (fun s => s == p ++ "@" ++ name ++ "@" ++ toString ver) = false) :
    HistInv ⟨idxAppend st.index p ⟨p, name, ver, bt⟩,
      st.seen ++ [p ++ "@" ++ name ++ "@" ++ toString ver]⟩ := by
  intro p2 l2 hl2
  simp only at hl2
  have hkey_notmem : (p ++ "@" ++ name ++ "@" ++ toString ver) ∉ st.seen := by
    intro hmem
    have := List.any_eq_false.mp hnew _ hmem
    simp at this
  by_cases hp : p2 = p
  · subst hp
    rw [idxGet_idxAppend_same] at hl2
    injection hl2 with hl2
    cases hold : idxGet st.index p2 with
    | none =>
      rw [hold] at hl2
      simp only [Option.getD_none, List.nil_append] at hl2
      subst hl2
      constructor
      · intro info hi
        rcases List.mem_singleton.mp hi with rfl
        exact ⟨rfl, List.mem_append_right _ (List.mem_singleton.mpr rfl)⟩
      · simp
    | some old =>
      rw [hold] at hl2
      simp only [Option.getD_some] at hl2
      subst hl2
      obtain ⟨hmem, hpair⟩ := h p2 old hold
      constructor
      · intro info hi
        rcases List.mem_append.mp hi with hi | hi
        · obtain ⟨hfp, hkey⟩ := hmem info hi
          exact ⟨hfp, List.mem_append_left _ hkey⟩
        · rcases List.mem_singleton.mp hi with rfl
          exact ⟨rfl, List.mem_append_right _ (List.mem_singleton.mpr rfl)⟩
      · rw [List.pairwise_append]
        refine ⟨hpair, by simp, ?_⟩
        intro a ha b hb
        rcases List.mem_singleton.mp hb with rfl
        rintro ⟨hname, hver⟩
        obtain ⟨hfp, hkey⟩ := hmem a ha
        simp only at hname hver
        apply hkey_notmem
        have hkeyeq : backupKey a = p2 ++ "@" ++ name ++ "@" ++ toString ver := by
          rw [backupKey, hfp, hname, hver]
        rw [← hkeyeq]
        exact hkey
  · rw [idxGet_idxAppend_other st.index p _ p2 hp] at hl2
    obtain ⟨hmem, hpair⟩ := h p2 l2 hl2
    refine ⟨?_, hpair⟩
    intro info hi
    obtain ⟨hfp, hkey⟩ := hmem info hi
    exact ⟨hfp, List.mem_append_left _ hkey⟩

theorem processTrackedFile_inv (st : HistoryState) (kv : String × Json)
    (h : HistInv st) : HistInv (processTrackedFile st kv) := by
  unfold processTrackedFile
  split
  · exact h
  next v heq =>
    split
    · exact h
    split
    · exact h
    next hseen =>
      have hseen2 : (st.seen.any fun s => s == trackedKey kv.1 kv.2 v) = false :=
        Bool.eq_false_iff.mpr hseen
      have hkey : trackedKey kv.1 kv.2 v =
          kv.1 ++ "@" ++ jsToString v ++ "@" ++ toString (trackedVersion kv.2) := rfl
      rw [hkey] at hseen2
      exact histInv_push st kv.1 (jsToString v) (trackedVersion kv.2)
        (kv.2.getField "backupTime") h hseen2

theorem processSnapshotEntry_inv (st : HistoryState) (e : ParsedEntry)
    (h : HistInv st) : HistInv (processSnapshotEntry st e) := by
  unfold processSnapshotEntry
  split
  · exact h
  split
  · exact h
  split
  · exact h
  split
  · exact h
  exact foldl_invariant HistInv processTrackedFile processTrackedFile_inv _ st h

theorem buildFileHistoryIndex_invariant (entries : List ParsedEntry) :
    ∀ p l, idxGet (buildFileHistoryIndex entries) p = some l →
      (∀ info ∈ l, info.filePath = p) ∧
      l.Pairwise (fun a b =>
        ¬(a.backupFileName = b.backupFileName ∧ a.version = b.version)) ∧
      l.Pairwise (fun a b => a.version ≤ b.version) := by
  intro p l hl
  have hinv : HistInv (entries.foldl processSnapshotEntry ⟨[], []⟩) := by
    refine foldl_invariant HistInv processSnapshotEntry processSnapshotEntry_inv entries _ ?_
    intro p2 l2 h2
    exact absurd h2 (by rw [show idxGet [] p2 = none from rfl]; simp)
  unfold buildFileHistoryIndex at hl
  rw [idxGet_map_sort] at hl
  cases hraw : idxGet (entries.foldl processSnapshotEntry ⟨[], []⟩).index p with
  | none => rw [hraw] at hl; exact absurd hl (by simp)
  | some raw =>
    rw [hraw] at hl
    have hl2 : some (sortByVersion raw) = some l := hl
    injection hl2 with hl3
    subst hl3
    obtain ⟨hmem, hpair⟩ := hinv p raw hraw
    have hperm := sortByVersion_perm raw
    have hsymm : ∀ {a b : FileBackupInfo},
        ¬(a.backupFileName = b.backupFileName ∧ a.version = b.version) →
        ¬(b.backupFileName = a.backupFileName ∧ b.version = a.version) :=
      fun hab hc => hab ⟨hc.1.symm, hc.2.symm⟩
    refine ⟨?_, ?_, sortByVersion_sorted raw⟩
    · intro info hi
      exact (hmem info (hperm.mem_iff.mp hi)).1
    · exact (hperm.pairwise_iff hsymm).mpr hpair

theorem getLast?_max : ∀ (l : List FileBackupInfo),
    l.Pairwise (fun a b => a.version ≤ b.version) → ∀ x, l.getLast? = some x →
    ∀ a ∈ l, a.version ≤ x.version
  | [], _, x, hx => by simp at hx
  | [y], _, x, hx => by
    intro a ha
    have hyx : y = x := by simpa using hx
    have hay : a = y := by simpa using ha
    rw [hay, hyx]
  | y :: z :: zs, hp, x, hx => by
    intro a ha
    rw [List.getLast?_cons_cons] at hx
    rcases List.pairwise_cons.mp hp with ⟨hy, hp2⟩
    rcases List.mem_cons.mp ha with rfl | ha2
    · exact hy x (List.mem_of_mem_getLast? hx)
    · exact getLast?_max (z :: zs) hp2 x hx a ha2

/-- C6: `buildFileHistoryIndex` de-duplicates by the (filePath,
backupFileName, version) triple — every bucket entry carries the bucket's
path and no bucket holds two entries with the same backup filename and
version — it skips tracked-file records whose backup filename is absent or
falsy (they leave the scan state unchanged), and each path's list is
non-decreasing by version. -/
theorem buildFileHistoryIndex_dedup_skip_sorted (entries : List ParsedEntry) :
    (∀ p l, idxGet (buildFileHistoryIndex entries) p = some l →
      (∀ info ∈ l, info.filePath = p) ∧
      l.Pairwise (fun a b =>
        ¬(a.backupFileName = b.backupFileName ∧ a.version = b.version)) ∧
      l.Pairwise (fun a b => a.version ≤ b.version)) ∧
    (∀ (st : HistoryState) (kv : String × Json),
      kv.2.getField "backupFileName" = none → processTrackedFile st kv = st) ∧
    (∀ (st : HistoryState) (kv : String × Json) (v : Json),
      kv.2.getField "backupFileName" = some v → jsTruthy v = false →
      processTrackedFile st kv = st) := by
  refine ⟨buildFileHistoryIndex_invariant entries, ?_, ?_⟩
  · intro st kv hnone
    unfold processTrackedFile
    rw [hnone]
  · intro st kv v hv htr
    unfold processTrackedFile
    split
    · rfl
    next w heq =>
      rw [hv] at heq
      injection heq with heq
      subst heq
      rw [if_pos (by simp [htr])]

/-- Witness for C6 on four snapshot entries containing one duplicated triple
and out-of-order versions: the `a.txt` bucket holds exactly the three
distinct triples, version-sorted. -/
theorem buildFileHistoryIndex_dedup_skip_sorted_witness :
    (∀ info ∈ ([⟨"a.txt", "b1", 1, none⟩, ⟨"a.txt", "b2", 2, none⟩,
        ⟨"a.txt", "b3", 3, none⟩] : List FileBackupInfo), info.filePath = "a.txt") ∧
    ([⟨"a.txt", "b1", 1, none⟩, ⟨"a.txt", "b2", 2, none⟩,
        ⟨"a.txt", "b3", 3, none⟩] : List FileBackupInfo).Pairwise (fun a b =>
        ¬(a.backupFileName = b.backupFileName ∧ a.version = b.version)) ∧
    ([⟨"a.txt", "b1", 1, none⟩, ⟨"a.txt", "b2", 2, none⟩,
        ⟨"a.txt", "b3", 3, none⟩] : List FileBackupInfo).Pairwise
      (fun a b => a.version ≤ b.version) :=
  (buildFileHistoryIndex_dedup_skip_sorted exHistoryEntries).1 "a.txt"
    [⟨"a.txt", "b1", 1, none⟩, ⟨"a.txt", "b2", 2, none⟩, ⟨"a.txt", "b3", 3, none⟩]
    (by rfl)

/-- C5: on an index built by `buildFileHistoryIndex`, `findPreviousBackup`
returns none when the version is 0 (falsy) or the path is unindexed; when it
returns an entry, that entry lies in the path's bucket, has version strictly
below the given one, and no bucket entry below the given version exceeds it
(it is the latest strictly-earlier version); when no bucket entry is below
the given version it returns none. -/
theorem findPreviousBackup_spec (entries : List ParsedEntry) (filePath : String)
    (version : Int) (index : List (String × List FileBackupInfo))
    (hindex : index = buildFileHistoryIndex entries) :
    (version = 0 → findPreviousBackup filePath version index = none) ∧
    (idxGet index filePath = none → findPreviousBackup filePath version index = none) ∧
    (∀ l, idxGet index filePath = some l →
      ((∀ item ∈ l, ¬item.version < version) →
        findPreviousBackup filePath version index = none) ∧
      (∀ info, findPreviousBackup filePath version index = some info →
        info ∈ l ∧ info.version < version ∧
        ∀ item ∈ l, item.version < version → item.version ≤ info.version)) := by
  refine ⟨?_, ?_, ?_⟩
  · intro h0
    subst h0
    unfold findPreviousBackup
    split
    · rfl
    · rw [if_pos (by simp)]
  · intro hnone
    unfold findPreviousBackup
    rw [hnone]
  · intro l hl
    have hsorted : l.Pairwise (fun a b => a.version ≤ b.version) := by
      subst hindex
      exact (buildFileHistoryIndex_invariant entries filePath l hl).2.2
    constructor
    · intro hall
      unfold findPreviousBackup
      rw [hl]
      show (if (l.isEmpty || version == 0) = true then none
        else if (l.filter (fun item => item.version < version)).isEmpty = true then none
        else (l.filter (fun item => item.version < version)).getLast?) =
          (none : Option FileBackupInfo)
      by_cases hguard : (l.isEmpty || version == 0) = true
      · rw [if_pos hguard]
      · rw [if_neg hguard]
        have hcand : l.filter (fun item => item.version < version) = [] := by
          rw [List.filter_eq_nil_iff]
          intro a ha
          simpa using hall a ha
        rw [hcand]
        rfl
    · intro info hinfo
      unfold findPreviousBackup at hinfo
      rw [hl] at hinfo
      have hinfo2 : (if (l.isEmpty || version == 0) = true then none
          else if (l.filter (fun item => item.version < version)).isEmpty = true then none
          else (l.filter (fun item => item.version < version)).getLast?) =
            some info := hinfo
      by_cases hguard : (l.isEmpty || version == 0) = true
      · rw [if_pos hguard] at hinfo2
        exact absurd hinfo2 (by simp)
      · rw [if_neg hguard] at hinfo2
        by_cases hcand : (l.filter (fun item => item.version < version)).isEmpty = true
        · rw [if_pos hcand] at hinfo2
          exact absurd hinfo2 (by simp)
        · rw [if_neg hcand] at hinfo2
          have hmemf : info ∈ l.filter (fun item => item.version < version) :=
            List.mem_of_mem_getLast? hinfo2
          have hmem2 := List.mem_filter.mp hmemf
          refine ⟨hmem2.1, by simpa using hmem2.2, ?_⟩
          intro item hitem hlt
          have hfs : (l.filter (fun item => item.version < version)).Pairwise
              (fun a b => a.version ≤ b.version) :=
            List.Pairwise.sublist (List.filter_sublist l) hsorted
          exact getLast?_max _ hfs info hinfo2 item
            (List.mem_filter.mpr ⟨hitem, by simpa using hlt⟩)

/-- Witness for C5: on the concrete index, the previous backup of `a.txt`
before version 3 is the version-2 entry, the largest strictly below 3. -/
theorem findPreviousBackup_spec_witness :
    (⟨"a.txt", "b2", 2, none⟩ : FileBackupInfo) ∈
      ([⟨"a.txt", "b1", 1, none⟩, ⟨"a.txt", "b2", 2, none⟩,
        ⟨"a.txt", "b3", 3, none⟩] : List FileBackupInfo) ∧
    (⟨"a.txt", "b2", 2, none⟩ : FileBackupInfo).version < 3 ∧
    ∀ item ∈ ([⟨"a.txt", "b1", 1, none⟩, ⟨"a.txt", "b2", 2, none⟩,
        ⟨"a.txt", "b3", 3, none⟩] : List FileBackupInfo),
      item.version < 3 → item.version ≤ (⟨"a.txt", "b2", 2, none⟩ : FileBackupInfo).version :=
  ((findPreviousBackup_spec exHistoryEntries "a.txt" 3
      (buildFileHistoryIndex exHistoryEntries) rfl).2.2
    [⟨"a.txt", "b1", 1, none⟩, ⟨"a.txt", "b2", 2, none⟩, ⟨"a.txt", "b3", 3, none⟩]
    (by rfl)).2 ⟨"a.txt", "b2", 2, none⟩ (by rfl)

/-! ### Tree filtering: survival characterization -/

theorem Occurs_cons (d x : ProjectNode) (rest : List ProjectNode) :
    Occurs d (x :: rest) ↔ d = x ∨ Occurs d x.children ∨ Occurs d rest := by
  constructor
  · intro h
    cases h with
    | self hm he =>
      rcases List.mem_cons.mp hm with rfl | hm2
      · exact Or.inl he
      · exact Or.inr (Or.inr (Occurs.self hm2 he))
    | desc hm hc =>
      rcases List.mem_cons.mp hm with rfl | hm2
      · exact Or.inr (Or.inl hc)
      · exact Or.inr (Or.inr (Occurs.desc hm2 hc))
  · rintro (rfl | h | h)
    · exact Occurs.self (List.mem_cons_self _ _) rfl
    · exact Occurs.desc (List.mem_cons_self _ _) h
    · cases h with
      | self hm he => exact Occurs.self (List.mem_cons_of_mem _ hm) he
      | desc hm hc => exact Occurs.desc (List.mem_cons_of_mem _ hm) hc

mutual

theorem filterNode_isSome_iff (t : String) : ∀ (n : ProjectNode),
    (filterNode t n).isSome = true ↔
      (nodeMatches t n = true ∨ ∃ d, Occurs d n.children ∧ nodeMatches t d = true)
  | ⟨i, nm, p, lm, sc, ps, children⟩ => by
    have ihc := filterNodes_nonempty_iff t children
    rw [filterNode]
    by_cases hcond :
        (nodeMatches t ⟨i, nm, p, lm, sc, ps, children⟩ ||
          !(filterNodes t children).isEmpty) = true
    · rw [if_pos hcond]
      constructor
      · intro _
        rcases Bool.or_eq_true_iff.mp hcond with hm | hc
        · exact Or.inl hm
        · have hnn : filterNodes t children ≠ [] := by
            intro hh
            rw [hh] at hc
            simp at hc
          exact Or.inr (ihc.mp hnn)
      · intro _
        rfl
    · rw [if_neg hcond]
      constructor
      · intro hh
        exact absurd hh (by simp)
      · intro hor
        exfalso
        apply hcond
        rcases hor with hm | ⟨d, hd, hdm⟩
        · exact Bool.or_eq_true_iff.mpr (Or.inl hm)
        · have hnn : filterNodes t children ≠ [] := ihc.mpr ⟨d, hd, hdm⟩
          refine Bool.or_eq_true_iff.mpr (Or.inr ?_)
          simpa [List.isEmpty_iff] using hnn

theorem filterNodes_nonempty_iff (t : String) : ∀ (l : List ProjectNode),
    filterNodes t l ≠ [] ↔ ∃ n, Occurs n l ∧ nodeMatches t n = true
  | [] => by
    rw [filterNodes]
    constructor
    · intro h
      exact absurd rfl h
    · rintro ⟨n, hn, _⟩
      cases hn with
      | self hm _ => cases hm
      | desc hm _ => cases hm
  | n :: rest => by
    have ihn := filterNode_isSome_iff t n
    have ihr := filterNodes_nonempty_iff t rest
    rw [filterNodes]
    cases hfn : filterNode t n with
    | some m =>
      constructor
      · intro _
        have hsome : (filterNode t n).isSome = true := by rw [hfn]; rfl
        rcases ihn.mp hsome with hm | ⟨d, hd, hdm⟩
        · exact ⟨n, (Occurs_cons n n rest).mpr (Or.inl rfl), hm⟩
        · exact ⟨d, (Occurs_cons d n rest).mpr (Or.inr (Or.inl hd)), hdm⟩
      · intro _
        simp
    | none =>
      constructor
      · intro hne
        rcases ihr.mp hne with ⟨d, hd, hdm⟩
        exact ⟨d, (Occurs_cons d n rest).mpr (Or.inr (Or.inr hd)), hdm⟩
      · rintro ⟨d, hd, hdm⟩
        rcases (Occurs_cons d n rest).mp hd with rfl | hd2 | hd2
        · have hsome : (filterNode t d).isSome = true := ihn.mpr (Or.inl hdm)
          rw [hfn] at hsome
          simp at hsome
        · have hsome : (filterNode t n).isSome = true := ihn.mpr (Or.inr ⟨d, hd2, hdm⟩)
          rw [hfn] at hsome
          simp at hsome
        · exact ihr.mpr ⟨d, hd2, hdm⟩

end

theorem filterNodes_eq_filterMap (t : String) : ∀ l : List ProjectNode,
    filterNodes t l = l.filterMap (filterNode t)
  | [] => rfl
  | n :: rest => by
    rw [filterNodes, List.filterMap_cons]
    cases hfn : filterNode t n <;> simp [filterNodes_eq_filterMap t rest]

theorem filterNode_some_shape (t : String) : ∀ (n m : ProjectNode),
    filterNode t n = some m → m = { n with children := filterNodes t n.children }
  | ⟨i, nm, p, lm, sc, ps, children⟩, m => by
    rw [filterNode]
    by_cases hcond :
        (nodeMatches t ⟨i, nm, p, lm, sc, ps, children⟩ ||
          !(filterNodes t children).isEmpty) = true
    · rw [if_pos hcond]
      intro h
      injection h with h
      exact h.symm
    · rw [if_neg hcond]
      intro h
      exact absurd h (by simp)

/-- C8: with a non-empty normalized query, `filterProjectTree` keeps exactly
the nodes that match the case-insensitive substring query on name or path or
have a matching descendant (so every ancestor of a match is retained), each
kept node rebuilt with its filtered children; the filter constructs a fresh
tree — in the concrete example, filtering on "bar" keeps Foo → Foo/Bar,
drops Foo/Baz, and the original tree still lists both children. -/
theorem filterProjectTree_spec (nodes : List ProjectNode) (query t : String)
    (ht : t = normalizeQuery query) (hne : t ≠ "") :
    filterProjectTree nodes query = nodes.filterMap (filterNode t) ∧
    (∀ n : ProjectNode, (filterNode t n).isSome = true ↔ Keeps t n) ∧
    (∀ n m : ProjectNode, filterNode t n = some m →
      m = { n with children := filterNodes t n.children }) ∧
    filterProjectTree [exFooNode] "bar" =
      [⟨"Foo", "Foo", "Foo", 200, 3, none, [exBarNode]⟩] ∧
    exFooNode.children = [exBazNode, exBarNode] := by
  refine ⟨?_, ?_, fun n m => filterNode_some_shape t n m, by rfl, by rfl⟩
  · unfold filterProjectTree
    rw [← ht, if_neg hne]
    exact filterNodes_eq_filterMap t nodes
  · intro n
    exact filterNode_isSome_iff t n

/-- Witness for C8 at the concrete tree and the query `"bar"`. -/
theorem filterProjectTree_spec_witness :
    filterProjectTree [exFooNode] "bar" =
      ([exFooNode] : List ProjectNode).filterMap (filterNode "bar") :=
  (filterProjectTree_spec [exFooNode] "bar" "bar" (by rfl) (by decide)).1

/-! ### Project tree: node-store lemmas -/

theorem nodesGet_cons (x : List String × NodeData) (xs : List (List String × NodeData))
    (k : List String) :
    nodesGet (x :: xs) k = if x.1 == k then some x.2 else nodesGet xs k := by
  by_cases hx : x.1 == k
  · simp [nodesGet, List.find?_cons_of_pos _ hx, hx]
  · simp [nodesGet, List.find?_cons_of_neg _ hx, hx]

theorem nodesGet_append (m1 m2 : List (List String × NodeData)) (k : List String) :
    nodesGet (m1 ++ m2) k = (nodesGet m1 k).or (nodesGet m2 k) := by
  simp only [nodesGet, List.find?_append]
  cases m1.find? (fun q => q.1 == k) <;> simp

theorem nodesGet_nodesSet_same (nodes : List (List String × NodeData)) (k : List String)
    (f : NodeData → NodeData) :
    nodesGet (nodesSet nodes k f) k = (nodesGet nodes k).map f := by
  induction nodes with
  | nil => rfl
  | cons x xs ih =>
    by_cases hx : x.1 == k
    · rw [nodesSet, List.map_cons, if_pos hx]
      rw [show nodesSet xs k f = List.map (fun q => if q.1 == k then (q.1, f q.2) else q) xs from rfl] at ih
      rw [nodesGet_cons, if_pos hx, nodesGet_cons, if_pos hx]
      rfl
    · rw [nodesSet, List.map_cons, if_neg hx]
      rw [show nodesSet xs k f = List.map (fun q => if q.1 == k then (q.1, f q.2) else q) xs from rfl] at ih
      rw [nodesGet_cons, if_neg hx, nodesGet_cons, if_neg hx]
      exact ih

theorem nodesGet_nodesSet_other (nodes : List (List String × NodeData)) (k : List String)
    (f : NodeData → NodeData) (k2 : List String) (hne : k2 ≠ k) :
    nodesGet (nodesSet nodes k f) k2 = nodesGet nodes k2 := by
  induction nodes with
  | nil => rfl
  | cons x xs ih =>
    rw [nodesSet, List.map_cons]
    rw [show nodesSet xs k f = List.map (fun q => if q.1 == k then (q.1, f q.2) else q) xs from rfl] at ih
    by_cases hx : x.1 == k
    · rw [if_pos hx, nodesGet_cons, nodesGet_cons]
      have hx1 : x.1 = k := by simpa using hx
      by_cases hx2 : x.1 == k2
      · have hx2e : x.1 = k2 := by simpa using hx2
        exact absurd (hx2e.symm.trans hx1) hne
      · rw [if_neg (by simpa using hx2), if_neg hx2]
        exact ih
    · rw [if_neg hx, nodesGet_cons, nodesGet_cons]
      by_cases hx2 : x.1 == k2
      · rw [if_pos hx2, if_pos hx2]
      · rw [if_neg hx2, if_neg hx2]
        exact ih

theorem pre_ne_append (pre : List String) (seg : String) : pre ≠ pre ++ [seg] := by
  intro h
  have hlen := congrArg List.length h
  simp at hlen

theorem statGet_addChildKey (nodes : List (List String × NodeData)) (pk k k2 : List String) :
    (nodesGet (addChildKey nodes pk k) k2).map (fun d => (d.sessionsCount, d.latestMtime)) =
      (nodesGet nodes k2).map (fun d => (d.sessionsCount, d.latestMtime)) := by
  unfold addChildKey
  by_cases h : k2 = pk
  · subst h
    rw [nodesGet_nodesSet_same]
    cases nodesGet nodes k2 <;> rfl
  · rw [nodesGet_nodesSet_other _ _ _ _ h]

theorem insertSegNode_existing (g : SessionGroup) (seg : String) (pre : List String)
    (st : TreeState) (d : NodeData) (hexist : nodesGet st.nodes (pre ++ [seg]) = some d) :
    insertSegNode g seg pre st = st := by
  unfold insertSegNode
  rw [hexist]

theorem insertSegNode_new_same (g : SessionGroup) (seg : String) (pre : List String)
    (st : TreeState) (hnone : nodesGet st.nodes (pre ++ [seg]) = none) :
    nodeStat (insertSegNode g seg pre st) (pre ++ [seg]) = some (0, g.latestMtime) := by
  unfold insertSegNode
  rw [hnone]
  by_cases hpre : pre.isEmpty
  · rw [if_pos hpre]
    unfold nodeStat
    simp only
    rw [nodesGet_append, hnone]
    rw [show nodesGet [(pre ++ [seg], freshSegNode g seg)] (pre ++ [seg]) =
      some (freshSegNode g seg) from by rw [nodesGet_cons, if_pos (by simp)]]
    rfl
  · rw [if_neg hpre]
    unfold nodeStat
    simp only
    rw [statGet_addChildKey]
    rw [nodesGet_append, hnone]
    rw [show nodesGet [(pre ++ [seg], freshSegNode g seg)] (pre ++ [seg]) =
      some (freshSegNode g seg) from by rw [nodesGet_cons, if_pos (by simp)]]
    rfl

theorem insertSegNode_new_other (g : SessionGroup) (seg : String) (pre : List String)
    (st : TreeState) (k2 : List String) (hk2 : k2 ≠ pre ++ [seg]) :
    nodeStat (insertSegNode g seg pre st) k2 = nodeStat st k2 := by
  unfold insertSegNode
  cases hexist : nodesGet st.nodes (pre ++ [seg]) with
  | some d => rfl
  | none =>
    by_cases hpre : pre.isEmpty
    · rw [if_pos hpre]
      unfold nodeStat
      simp only
      rw [nodesGet_append]
      rw [show nodesGet [(pre ++ [seg], freshSegNode g seg)] k2 = none from by
        rw [nodesGet_cons, if_neg (by simp; exact fun hh => hk2 hh.symm)]
        rfl]
      cases nodesGet st.nodes k2 <;> rfl
    · rw [if_neg hpre]
      unfold nodeStat
      simp only
      rw [statGet_addChildKey]
      rw [nodesGet_append]
      rw [show nodesGet [(pre ++ [seg], freshSegNode g seg)] k2 = none from by
        rw [nodesGet_cons, if_neg (by simp; exact fun hh => hk2 hh.symm)]
        rfl]
      cases nodesGet st.nodes k2 <;> rfl

theorem bumpSegNode_same (g : SessionGroup) (isLast : Bool) (k : List String)
    (st : TreeState) :
    nodeStat (bumpSegNode g isLast k st) k =
      (nodeStat st k).map (fun cm => (cm.1 + g.sessions.length, max cm.2 g.latestMtime)) := by
  unfold bumpSegNode nodeStat
  simp only
  rw [nodesGet_nodesSet_same]
  cases nodesGet st.nodes k <;> rfl

theorem bumpSegNode_other (g : SessionGroup) (isLast : Bool) (k : List String)
    (st : TreeState) (k2 : List String) (hk2 : k2 ≠ k) :
    nodeStat (bumpSegNode g isLast k st) k2 = nodeStat st k2 := by
  unfold bumpSegNode nodeStat
  simp only
  rw [nodesGet_nodesSet_other _ _ _ _ hk2]

theorem processSegment_stat (g : SessionGroup) (isLast : Bool) (seg : String)
    (pre : List String) (st : TreeState) (k2 : List String) :
    nodeStat (processSegment g isLast seg pre st) k2 =
      if k2 = pre ++ [seg] then
        match nodeStat st k2 with
        | some cm => some (cm.1 + g.sessions.length, max cm.2 g.latestMtime)
        | none => some (g.sessions.length, g.latestMtime)
      else nodeStat st k2 := by
  unfold processSegment
  by_cases hk : k2 = pre ++ [seg]
  · subst hk
    rw [if_pos rfl, bumpSegNode_same]
    cases hexist : nodesGet st.nodes (pre ++ [seg]) with
    | some d =>
      rw [insertSegNode_existing g seg pre st d hexist]
      rw [show nodeStat st (pre ++ [seg]) = some (d.sessionsCount, d.latestMtime) from by
        rw [nodeStat, hexist]
        rfl]
      rfl
    | none =>
      rw [insertSegNode_new_same g seg pre st hexist]
      rw [show nodeStat st (pre ++ [seg]) = none from by rw [nodeStat, hexist]; rfl]
      simp
  · rw [if_neg hk, bumpSegNode_other _ _ _ _ _ hk]
    cases hexist : nodesGet st.nodes (pre ++ [seg]) with
    | some d => rw [insertSegNode_existing g seg pre st d hexist]
    | none => rw [insertSegNode_new_other g seg pre st k2 hk]

theorem processGroupSegs_frame (g : SessionGroup) :
    ∀ (rest pre : List String) (st : TreeState) (k2 : List String),
      (∀ j : Nat, 1 ≤ j → j ≤ rest.length → k2 ≠ pre ++ rest.take j) →
      nodeStat (processGroupSegs g pre rest st) k2 = nodeStat st k2
  | [], _, _, _, _ => rfl
  | seg :: rest2, pre, st, k2, havoid => by
    have h1 : k2 ≠ pre ++ [seg] := by
      have h := havoid 1 (le_refl 1) (by simp)
      intro hh
      exact h (by rw [hh]; rfl)
    have havoid2 : ∀ j : Nat, 1 ≤ j → j ≤ rest2.length →
        k2 ≠ (pre ++ [seg]) ++ rest2.take j := by
      intro j hj1 hj2 hh
      apply havoid (j + 1) (by omega) (by simp; omega)
      rw [hh, List.take_succ_cons]
      simp [List.append_assoc]
    have ih := processGroupSegs_frame g rest2 (pre ++ [seg])
      (processSegment g rest2.isEmpty seg pre st) k2 havoid2
    rw [processGroupSegs, ih, processSegment_stat, if_neg h1]

theorem processGroupSegs_touched (g : SessionGroup) :
    ∀ (rest pre : List String) (st : TreeState) (j : Nat),
      1 ≤ j → j ≤ rest.length →
      nodeStat (processGroupSegs g pre rest st) (pre ++ rest.take j) =
        (match nodeStat st (pre ++ rest.take j) with
          | some cm => some (cm.1 + g.sessions.length, max cm.2 g.latestMtime)
          | none => some (g.sessions.length, g.latestMtime))
  | [], _, _, j, hj1, hj2 => by simp at hj2; omega
  | seg :: rest2, pre, st, j, hj1, hj2 => by
    rw [processGroupSegs]
    match j, hj1 with
    | 1, _ =>
      have hkey : pre ++ (seg :: rest2).take 1 = pre ++ [seg] := rfl
      rw [hkey]
      have hfr := processGroupSegs_frame g rest2 (pre ++ [seg])
        (processSegment g rest2.isEmpty seg pre st) (pre ++ [seg])
        (fun i hi1 hi2 hh => by
          have hlen := congrArg List.length hh
          simp only [List.length_append, List.length_take, List.length_cons,
            List.length_nil, min_eq_left hi2] at hlen
          omega)
      rw [hfr, processSegment_stat, if_pos rfl]
    | (j3 + 2), _ =>
      have hj2b : j3 + 1 ≤ rest2.length := by
        simp at hj2
        omega
      have hkey : pre ++ (seg :: rest2).take (j3 + 2) =
          (pre ++ [seg]) ++ rest2.take (j3 + 1) := by
        rw [List.take_succ_cons, List.append_cons]
      rw [hkey]
      have ih := processGroupSegs_touched g rest2 (pre ++ [seg])
        (processSegment g rest2.isEmpty seg pre st) (j3 + 1) (by omega) hj2b
      rw [ih]
      have hne : (pre ++ [seg]) ++ rest2.take (j3 + 1) ≠ pre ++ [seg] := by
        intro hh
        have hlen := congrArg List.length hh
        simp only [List.length_append, List.length_take, List.length_cons,
          List.length_nil, min_eq_left hj2b] at hlen
        omega
      rw [processSegment_stat, if_neg hne]

theorem isPrefixOf_take : ∀ (k l : List String),
    k.isPrefixOf l = true ↔ (k.length ≤ l.length ∧ k = l.take k.length)
  | [], l => by simp [List.isPrefixOf]
  | a :: as, [] => by simp [List.isPrefixOf]
  | a :: as, b :: bs => by
    simp only [List.isPrefixOf, Bool.and_eq_true, beq_iff_eq]
    rw [isPrefixOf_take as bs]
    simp only [List.length_cons, List.take_succ_cons, List.cons.injEq, Nat.add_le_add_iff_right]
    constructor
    · rintro ⟨rfl, h1, h2⟩
      exact ⟨h1, rfl, h2⟩
    · rintro ⟨h1, rfl, h2⟩
      exact ⟨rfl, h1, h2⟩

theorem isUnder_iff_touched (k : List String) (g : SessionGroup) (hk : k ≠ []) :
    isUnder k g = true ↔
      ∃ j, 1 ≤ j ∧ j ≤ (splitPath g.project).length ∧
        k = [] ++ (splitPath g.project).take j := by
  unfold isUnder
  rw [isPrefixOf_take]
  constructor
  · rintro ⟨hlen, htake⟩
    exact ⟨k.length, List.length_pos.mpr hk, hlen, by simpa using htake⟩
  · rintro ⟨j, hj1, hj2, heq⟩
    simp only [List.nil_append] at heq
    subst heq
    have hlen : ((splitPath g.project).take j).length = j := by
      rw [List.length_take, min_eq_left hj2]
    constructor
    · rw [hlen]
      exact hj2
    · rw [hlen]

theorem treeInv_step (done : List SessionGroup) (g : SessionGroup) (st : TreeState)
    (hinv : TreeInv done st) :
    TreeInv (done ++ [g]) (processGroupSegs g [] (splitPath g.project) st) := by
  obtain ⟨hempty, hstat⟩ := hinv
  constructor
  · have hfr := processGroupSegs_frame g (splitPath g.project) [] st []
      (fun j hj1 hj2 hh => by
        have hlen := congrArg List.length hh
        simp only [List.length_append, List.length_take, List.length_nil,
          min_eq_left hj2] at hlen
        omega)
    unfold nodeStat at hfr
    rw [hempty] at hfr
    cases hlook : nodesGet (processGroupSegs g [] (splitPath g.project) st).nodes [] with
    | none => rfl
    | some d =>
      rw [hlook] at hfr
      exact absurd hfr (by simp)
  · intro k hk
    by_cases hu : isUnder k g = true
    · obtain ⟨j, hj1, hj2, hkeq⟩ := (isUnder_iff_touched k g hk).mp hu
      have htch := processGroupSegs_touched g (splitPath g.project) [] st j hj1 hj2
      rw [← hkeq] at htch
      have hfilter : (done ++ [g]).filter (isUnder k) = done.filter (isUnder k) ++ [g] := by
        rw [List.filter_append]
        simp [List.filter, hu]
      have hbase := hstat k hk
      cases hbase0 : nodeStat st k with
      | none =>
        rw [hbase0] at hbase htch
        rw [htch, hfilter, hbase]
        refine ⟨by simp, ⟨g, by simp, rfl⟩, by simp⟩
      | some cm =>
        obtain ⟨c, m⟩ := cm
        rw [hbase0] at hbase htch
        obtain ⟨hsum, ⟨g0, hg0, hg0m⟩, hub⟩ := hbase
        rw [htch, hfilter]
        refine ⟨?_, ?_, ?_⟩
        · rw [List.map_append, List.sum_append]
          simp [hsum]
        · rcases le_total g.latestMtime m with hle | hle
          · exact ⟨g0, List.mem_append_left _ hg0, by rw [max_eq_left hle]; exact hg0m⟩
          · exact ⟨g, List.mem_append_right _ (by simp), by rw [max_eq_right hle]⟩
        · intro g2 hg2
          rcases List.mem_append.mp hg2 with hg2 | hg2
          · exact le_trans (hub g2 hg2) (le_max_left _ _)
          · rcases List.mem_singleton.mp hg2 with rfl
            exact le_max_right _ _
    · have hfr := processGroupSegs_frame g (splitPath g.project) [] st k
        (fun j hj1 hj2 hh => hu ((isUnder_iff_touched k g hk).mpr ⟨j, hj1, hj2, hh⟩))
      have hfilter : (done ++ [g]).filter (isUnder k) = done.filter (isUnder k) := by
        rw [List.filter_append]
        simp [List.filter, hu]
      rw [hfr, hfilter]
      exact hstat k hk

theorem buildProjectTreeState_inv (groups : List SessionGroup) :
    TreeInv groups (buildProjectTreeState groups) := by
  suffices h : ∀ (gs done : List SessionGroup) (st : TreeState), TreeInv done st →
      TreeInv (done ++ gs)
        (gs.foldl (fun st2 g => processGroupSegs g [] (splitPath g.project) st2) st) by
    have h0 : TreeInv [] ⟨[], []⟩ := by
      constructor
      · rfl
      · intro k hk
        exact rfl
    have := h groups [] ⟨[], []⟩ h0
    simpa [buildProjectTreeState] using this
  intro gs
  induction gs with
  | nil =>
    intro done st h
    simpa using h
  | cons g gs ih =>
    intro done st h
    have h2 := treeInv_step done g st h
    have h3 := ih (done ++ [g]) _ h2
    simpa [List.append_assoc] using h3

theorem insertNode_perm (x : ProjectNode) (l : List ProjectNode) :
    List.Perm (insertNode x l) (x :: l) := by
  induction l with
  | nil => exact List.Perm.refl _
  | cons y ys ih =>
    rw [insertNode]
    by_cases h : nodeBefore x y
    · rw [if_pos h]
    · rw [if_neg h]
      exact List.Perm.trans (List.Perm.cons y ih) (List.Perm.swap x y ys)

theorem sortSiblings_perm (l : List ProjectNode) : List.Perm (sortSiblings l) l := by
  induction l with
  | nil => exact List.Perm.refl _
  | cons x xs ih =>
    exact List.Perm.trans (insertNode_perm x (xs.foldr insertNode []))
      (List.Perm.cons x ih)

theorem occurs_elim {n : ProjectNode} {ns : List ProjectNode} (h : Occurs n ns) :
    ∃ m ∈ ns, n = m ∨ Occurs n m.children := by
  cases h with
  | self hm he => exact ⟨_, hm, Or.inl he⟩
  | desc hm hc => exact ⟨_, hm, Or.inr hc⟩

theorem occurs_materialize (st : TreeState)
    (hkeys : ∀ k d, nodesGet st.nodes k = some d → k ≠ []) :
    ∀ (fuel : Nat) (ks : List (List String)) (n : ProjectNode),
      Occurs n (sortSiblings (ks.filterMap (fun k => materializeNode st fuel k))) →
      ∃ k d, nodesGet st.nodes k = some d ∧ k ≠ [] ∧
        n.latestMtime = d.latestMtime ∧ n.sessionsCount = d.sessionsCount ∧
        n.path = String.intercalate "/" k
  | fuel, ks, n => by
    intro hocc
    obtain ⟨m, hm, hcase⟩ := occurs_elim hocc
    have hm2 : m ∈ ks.filterMap (fun k => materializeNode st fuel k) :=
      (sortSiblings_perm _).mem_iff.mp hm
    obtain ⟨k, hkmem, hmk⟩ := List.mem_filterMap.mp hm2
    cases fuel with
    | zero =>
      rw [materializeNode] at hmk
      exact absurd hmk (by simp)
    | succ fuel2 =>
      rw [materializeNode] at hmk
      cases hd : nodesGet st.nodes k with
      | none =>
        rw [hd] at hmk
        exact absurd hmk (by simp)
      | some d =>
        rw [hd] at hmk
        injection hmk with hmk
        subst hmk
        rcases hcase with rfl | hchild
        · exact ⟨k, d, hd, hkeys k d hd, rfl, rfl, rfl⟩
        · exact occurs_materialize st hkeys fuel2 d.childKeys n hchild

/-- C7: every node of the tree `buildProjectTree` returns aggregates exactly
the groups whose project path lies at or below the node's path: its
`latestMtime` is the max of their `latestMtime`s and its `sessionsCount` the
sum of their session counts; on groups under `Foo/Bar` and `Foo/Baz` the
builder returns one root `Foo` with children `Foo/Baz`, `Foo/Bar`, the root's
mtime being the max (200) and its count the sum (3). -/
theorem buildProjectTree_aggregates (groups : List SessionGroup) :
    (∀ n : ProjectNode, Occurs n (buildProjectTree groups) →
      ∃ k : List String, k ≠ [] ∧ n.path = String.intercalate "/" k ∧
        (∃ g ∈ groups, isUnder k g = true ∧ n.latestMtime = g.latestMtime) ∧
        (∀ g ∈ groups, isUnder k g = true → g.latestMtime ≤ n.latestMtime) ∧
        n.sessionsCount =
          ((groups.filter (isUnder k)).map (fun g => g.sessions.length)).sum) ∧
    buildProjectTree exGroups = [exFooNode] := by
  refine ⟨?_, by rfl⟩
  intro n hocc
  obtain ⟨hempty, hstat⟩ := buildProjectTreeState_inv groups
  have hkeys : ∀ k d, nodesGet (buildProjectTreeState groups).nodes k = some d → k ≠ [] := by
    intro k d hd hk
    subst hk
    rw [hempty] at hd
    exact absurd hd (by simp)
  have hocc2 : Occurs n (sortSiblings ((buildProjectTreeState groups).roots.filterMap
      (fun k => materializeNode (buildProjectTreeState groups)
        ((buildProjectTreeState groups).nodes.length + 1) k))) := hocc
  obtain ⟨k, d, hd, hkne, hml, hsc, hpath⟩ :=
    occurs_materialize (buildProjectTreeState groups) hkeys _ _ n hocc2
  refine ⟨k, hkne, hpath, ?_⟩
  have hknode := hstat k hkne
  rw [show nodeStat (buildProjectTreeState groups) k =
      some (d.sessionsCount, d.latestMtime) from by rw [nodeStat, hd]; rfl] at hknode
  obtain ⟨hsum, ⟨g0, hg0, hg0m⟩, hub⟩ := hknode
  have hg02 := List.mem_filter.mp hg0
  refine ⟨⟨g0, hg02.1, hg02.2, by rw [hml, hg0m]⟩, ?_, by rw [hsc, hsum]⟩
  intro g hg hgu
  rw [hml]
  exact hub g (List.mem_filter.mpr ⟨hg, hgu⟩)

/-- Witness for C7: the aggregation statement applied at the concrete
two-group example and its root node. -/
theorem buildProjectTree_aggregates_witness :
    ∃ k : List String, k ≠ [] ∧ exFooNode.path = String.intercalate "/" k ∧
      (∃ g ∈ exGroups, isUnder k g = true ∧ exFooNode.latestMtime = g.latestMtime) ∧
      (∀ g ∈ exGroups, isUnder k g = true → g.latestMtime ≤ exFooNode.latestMtime) ∧
      exFooNode.sessionsCount =
        ((exGroups.filter (isUnder k)).map (fun g => g.sessions.length)).sum :=
  (buildProjectTree_aggregates exGroups).1 exFooNode
    (Occurs.self (by rw [(buildProjectTree_aggregates exGroups).2]; exact List.mem_cons_self _ _) rfl)
